import Mathlib

/-!
Shallow embedding of the booking engine of the ledger repository.

Conventions of the embedding:
* Exact rationals (the TS `exactnumber` values, normalized after every
  operation by the `amount` helper of amount.ts) are `ExactNum`: a
  kernel-computable normalized fraction.  `ExactNum.val` interprets them
  into Mathlib's `ℚ` for reasoning.
* JS `Date` values are their `getTime()` millisecond timestamps, as `Int`.
* `immutable.Map` values are association lists in stable insertion order:
  an update of an existing key replaces the entry in place, a new key is
  appended, a delete removes the entry.  This models the map's documented
  "undefined but stable" iteration order deterministically.
* Fallible TS functions returning `Either` become `Except Err`.
* Thrown runtime errors do not occur on the embedded paths: `Amount`
  arithmetic is only invoked on equal currencies by the booking code.
-/

/-! ### Exact rationals -/

/-- An exact rational: integer numerator over natural denominator.  All
values produced by the operations below are normalized (positive
denominator, reduced), mirroring exactnumber plus the normalize-every-op
policy of amount.ts, so structural equality is value equality on them. -/
structure ExactNum where
  num : Int
  den : Nat
deriving DecidableEq, Repr

instance : Inhabited ExactNum := ⟨⟨0, 1⟩⟩

/-- Embed an integer. -/
def ExactNum.ofInt (n : Int) : ExactNum := ⟨n, 1⟩

instance (n : Nat) : OfNat ExactNum n := ⟨⟨n, 1⟩⟩

/-- Reduce a fraction by the gcd of its parts. -/
def ExactNum.norm (q : ExactNum) : ExactNum :=
  if Nat.gcd q.num.natAbs q.den = 1 then q
  else ⟨q.num.tdiv (Nat.gcd q.num.natAbs q.den), q.den / Nat.gcd q.num.natAbs q.den⟩

/-- Addition with normalization. -/
def ExactNum.add (a b : ExactNum) : ExactNum :=
  ExactNum.norm ⟨a.num * b.den + b.num * a.den, a.den * b.den⟩

/-- Negation (normalization preserved). -/
def ExactNum.neg (a : ExactNum) : ExactNum := ⟨-a.num, a.den⟩

/-- Subtraction with normalization. -/
def ExactNum.sub (a b : ExactNum) : ExactNum := a.add b.neg

/-- Multiplication with normalization. -/
def ExactNum.mul (a b : ExactNum) : ExactNum :=
  ExactNum.norm ⟨a.num * b.num, a.den * b.den⟩

/-- Reciprocal. -/
def ExactNum.inv (a : ExactNum) : ExactNum :=
  if a.num < 0 then ⟨-(a.den : Int), a.num.natAbs⟩
  else if a.num = 0 then a
  else ⟨(a.den : Int), a.num.natAbs⟩

/-- Division with normalization. -/
def ExactNum.div (a b : ExactNum) : ExactNum := a.mul b.inv

/-- Absolute value (normalization preserved). -/
def ExactNum.abs (a : ExactNum) : ExactNum := ⟨|a.num|, a.den⟩

/-- Zero test: a normalized fraction is zero iff its numerator is. -/
def ExactNum.isZero (a : ExactNum) : Bool := a.num == 0

/-- Strict positivity (valid for positive denominators). -/
def ExactNum.isPos (a : ExactNum) : Bool := decide (0 < a.num)

/-- Comparison by cross multiplication (valid for positive denominators). -/
def ExactNum.blt (a b : ExactNum) : Bool :=
  decide (a.num * (b.den : Int) < b.num * (a.den : Int))

/-- Non-strict comparison by cross multiplication. -/
def ExactNum.ble (a b : ExactNum) : Bool :=
  decide (a.num * (b.den : Int) ≤ b.num * (a.den : Int))

/-- Well-formedness: positive denominator and reduced fraction.  Values
handled by the real system are of this shape. -/
def ExactNum.Wf (q : ExactNum) : Prop :=
  0 < q.den ∧ Nat.gcd q.num.natAbs q.den = 1

instance (q : ExactNum) : Decidable q.Wf := by
  unfold ExactNum.Wf; infer_instance

/-- Interpretation into Mathlib's rationals, for reasoning only. -/
noncomputable def ExactNum.val (q : ExactNum) : ℚ := (q.num : ℚ) / (q.den : ℚ)

/-- Decidable equality of `Except` results, for concrete evaluations. -/
instance {ε α : Type} [DecidableEq ε] [DecidableEq α] : DecidableEq (Except ε α) := fun a b =>
  match a, b with
  | .ok x, .ok y =>
    if h : x = y then .isTrue (by rw [h]) else .isFalse (fun hc => h (Except.ok.inj hc))
  | .error x, .error y =>
    if h : x = y then .isTrue (by rw [h]) else .isFalse (fun hc => h (Except.error.inj hc))
  | .ok _, .error _ => .isFalse (fun hc => Except.noConfusion hc)
  | .error _, .ok _ => .isFalse (fun hc => Except.noConfusion hc)

/-! ### Core data model: `src/lib/core/amount.ts` -/

/-- An exact rational number paired with a currency code
(`Amount` of `src/lib/core/amount.ts`). -/
structure Amount where
  amount : ExactNum
  currency : String
deriving DecidableEq, Repr

instance : Inhabited Amount := ⟨⟨⟨0, 1⟩, ""⟩⟩

/-- `Amount.zero` of amount.ts. -/
def Amount.zero (c : String) : Amount := ⟨⟨0, 1⟩, c⟩

/-- `isZero` of amount.ts. -/
def Amount.isZero (a : Amount) : Bool := a.amount.isZero

/-- `isPos` of amount.ts (`this.amount.gt(0)`). -/
def Amount.isPos (a : Amount) : Bool := a.amount.isPos

/-- `neg` of amount.ts. -/
def Amount.neg (a : Amount) : Amount := ⟨a.amount.neg, a.currency⟩

/-- `abs` of amount.ts. -/
def Amount.abs (a : Amount) : Amount := ⟨a.amount.abs, a.currency⟩

/-- `add` of amount.ts; currencies coincide at every embedded call site. -/
def Amount.add (a b : Amount) : Amount := ⟨a.amount.add b.amount, a.currency⟩

/-- `sub` of amount.ts; currencies coincide at every embedded call site. -/
def Amount.sub (a b : Amount) : Amount := ⟨a.amount.sub b.amount, a.currency⟩

/-- `mul` of amount.ts (scalar multiply by a bare rational). -/
def Amount.mul (a : Amount) (q : ExactNum) : Amount := ⟨a.amount.mul q, a.currency⟩

/-- `div` of amount.ts (scalar divide by a bare rational). -/
def Amount.div (a : Amount) (q : ExactNum) : Amount := ⟨a.amount.div q, a.currency⟩

/-- `lte` of amount.ts. -/
def Amount.lte (a b : Amount) : Bool := a.amount.ble b.amount

/-- `gt` of amount.ts. -/
def Amount.gt (a b : Amount) : Bool := b.amount.blt a.amount

/-! ### Dates and costs: `src/lib/booking/cost.ts` -/

/-- The raw parsed date form (`DateSpec` of `src/lib/parsing/spec/date.ts`). -/
structure DateSpec where
  date : String
  time : Option String
  timezone : Option String
deriving DecidableEq, Repr

/-- A cost lot (`Cost` of `src/lib/booking/cost.ts`): per-unit amounts, the
lot instant (`Date.getTime()`), the raw date-spec and the lot tags. -/
structure Cost where
  amounts : List Amount
  date : Int
  dateSpec : DateSpec
  tags : List String
deriving DecidableEq, Repr

/-- `Position` of `src/lib/booking/position.ts`: an amount at an optional
cost. -/
structure Position where
  amount : Amount
  cost : Option Cost
deriving DecidableEq, Repr

instance : Inhabited Position := ⟨default, none⟩

/-- Lot date of a position, `0` when held at no cost (used only on
positions that carry a cost, mirroring `a.cost.date.getTime()`). -/
def posDate (p : Position) : Int :=
  match p.cost with
  | some c => c.date
  | none => 0

/-! ### Association lists standing for `immutable.Map` -/

/-- First-match lookup in an association list. -/
def alookup {β : Type} : List (String × β) → String → Option β
  | [], _ => none
  | e :: es, k => if e.1 = k then some e.2 else alookup es k

/-- Replace the first entry with the key in place, else append: the stable
iteration order of `immutable.Map.set`. -/
def aset {β : Type} : List (String × β) → String → β → List (String × β)
  | [], k, v => [(k, v)]
  | e :: es, k, v => if e.1 = k then (k, v) :: es else e :: aset es k v

/-- Remove the first entry with the key: `immutable.Map.delete`. -/
def adel {β : Type} : List (String × β) → String → List (String × β)
  | [], _ => []
  | e :: es, k => if e.1 = k then es else e :: adel es k

/-! ### Inventory: `src/lib/booking/inventory.ts` -/

/-- The structural amount records of a cost key (`makeAmountRecord`):
the normalized rational together with the currency. -/
def costRecords (c : Cost) : List (ExactNum × String) :=
  c.amounts.map (fun a => (a.amount, a.currency))

/-- Equality of record collections as sets (`immutable.Set` equality). -/
def recSetEq (xs ys : List (ExactNum × String)) : Bool :=
  xs.all (fun x => ys.contains x) && ys.all (fun y => xs.contains y)

/-- Structural equality of lot keys (`makeCostRecord` identity): `none` for
cost-less positions, otherwise set-of-records plus timestamp. -/
def costKeyEq : Option Cost → Option Cost → Bool
  | none, none => true
  | some x, some y => x.date == y.date && recSetEq (costRecords x) (costRecords y)
  | _, _ => false

/-- `CurrencyInventory.addPosition` of inventory.ts: fold the position into
the lot-keyed map, summing amounts on an existing key and removing the
entry when the sum is zero.  The caller has excluded zero amounts. -/
def ciAddPosition : List Position → Position → List Position
  | [], p => [p]
  | q :: qs, p =>
    if costKeyEq q.cost p.cost then
      let s := q.amount.add p.amount
      if s.amount.isZero then qs else ⟨s, p.cost⟩ :: qs
    else q :: ciAddPosition qs p

/-- `Inventory` of inventory.ts: map from currency to its per-lot
positions. -/
structure Inventory where
  entries : List (String × List Position)
deriving DecidableEq, Repr

/-- `Inventory.Empty`. -/
def Inventory.Empty : Inventory := ⟨[]⟩

/-- `isEmpty` of inventory.ts. -/
def Inventory.isEmpty (inv : Inventory) : Bool := inv.entries.isEmpty

/-- `addPositions` of inventory.ts: skip zero amounts, fold each position
into its currency inventory, dropping a currency that becomes empty. -/
def Inventory.addPositions (inv : Inventory) (ps : List Position) : Inventory :=
  ⟨ps.foldl
    (fun entries p =>
      if p.amount.isZero then entries
      else
        let c := p.amount.currency
        let cur := (alookup entries c).getD []
        let nw := ciAddPosition cur p
        if nw.isEmpty then adel entries c else aset entries c nw)
    inv.entries⟩

/-- `addPosition` of inventory.ts. -/
def Inventory.addPosition (inv : Inventory) (p : Position) : Inventory :=
  inv.addPositions [p]

/-- `addAmounts` of inventory.ts. -/
def Inventory.addAmounts (inv : Inventory) (amounts : List Amount) : Inventory :=
  inv.addPositions (amounts.map (fun a => ⟨a, none⟩))

/-- `addAmount` of inventory.ts. -/
def Inventory.addAmount (inv : Inventory) (a : Amount) : Inventory :=
  inv.addAmounts [a]

/-- `getPositions` of inventory.ts: the currency inventories flattened in
the map's stable iteration order; no sorting is applied. -/
def Inventory.getPositions (inv : Inventory) : List Position :=
  inv.entries.foldr (fun e acc => e.2 ++ acc) []

/-- Modelled from the spec: `positions_for_currency(ccy)` (§4.2).  The
version of inventory.ts in the repository snapshot does not contain
`getPositionsForCurrency`, but booking.ts and the booking methods call it;
per the spec it returns the account's positions of the given currency,
i.e. the currency's slice of the map. -/
def Inventory.getPositionsForCurrency (inv : Inventory) (c : String) : List Position :=
  (alookup inv.entries c).getD []

/-- `InventoryMap` of inventory.ts. -/
abbrev InventoryMap := List (String × Inventory)

/-- A stored position of the currency `c`: correct currency tag, non-zero,
normalized rational amount. -/
def PosWf (c : String) (p : Position) : Prop :=
  p.amount.currency = c ∧ p.amount.isZero = false ∧ p.amount.amount.Wf

instance (c : String) (p : Position) : Decidable (PosWf c p) := by
  unfold PosWf; infer_instance

/-- A well-formed currency entry: non-empty, every position stored for the
right currency, pairwise distinct lot keys. -/
def EntryWf (c : String) (l : List Position) : Prop :=
  l ≠ [] ∧ (∀ p ∈ l, PosWf c p) ∧
    l.Pairwise (fun a b => costKeyEq a.cost b.cost = false)

instance (c : String) (l : List Position) : Decidable (EntryWf c l) := by
  unfold EntryWf; infer_instance

/-- The invariants `Inventory` maintains: distinct currency keys and
well-formed entries. -/
def Inventory.Wf (inv : Inventory) : Prop :=
  (inv.entries.map Prod.fst).Nodup ∧ ∀ e ∈ inv.entries, EntryWf e.1 e.2

instance (inv : Inventory) : Decidable inv.Wf := by
  unfold Inventory.Wf; infer_instance

/-- No zero-amount position is stored. -/
def Inventory.NoZeros (inv : Inventory) : Prop :=
  ∀ e ∈ inv.entries, ∀ p ∈ e.2, p.amount.isZero = false

instance (inv : Inventory) : Decidable inv.NoZeros := by
  unfold Inventory.NoZeros; infer_instance

/-- The stored position of a currency under a given lot key (the map read
`inventory.get(currency)?.positions.get(key)` of inventory.ts). -/
def findPosition (inv : Inventory) (c : String) (key : Option Cost) : Option Position :=
  ((alookup inv.entries c).getD []).find? (fun q => costKeyEq q.cost key)

/-! ### Binary heap: `heap.ts` (`makeHeap` / `popHeap` / `siftDown`).
All call sites use `first = 0`, so the embedding specializes `first` to 0;
indexing is by `lget` (JS reads are always in bounds on these paths). -/

/-- In-bounds list read, with a default (JS array indexing). -/
def lget {α : Type} [Inhabited α] (l : List α) (i : Nat) : α := l.getD i default

/-- The do-while loop of `siftDown`: on entry, `items[child]` is the
selected (largest) child of `start`, already known to be at least `top`.
The fuel bounds the descent; it never runs out (the child index at least
doubles each round). -/
def siftLoop {α : Type} [Inhabited α] (cmp : α → α → Bool) (size : Nat) (top : α) :
    List α → Nat → Nat → Nat → List α
  | l, start, _, 0 => l.set start top
  | l, start, child, fuel+1 =>
    let l2 := l.set start (lget l child)
    if size - 2 < 2 * child then l2.set child top
    else
      let c := 2 * child + 1
      let c2 := if c + 1 < size && cmp (lget l2 c) (lget l2 (c + 1)) then c + 1 else c
      if cmp (lget l2 c2) top then l2.set child top
      else siftLoop cmp size top l2 child c2 fuel

/-- `siftDown` of heap.ts (with `first = 0`): restore the heap property of
the subtree rooted at `start`, assuming the child subtrees are heaps. -/
def siftDown {α : Type} [Inhabited α] (cmp : α → α → Bool) (l : List α)
    (size start : Nat) : List α :=
  if size < 2 || size - 2 < 2 * start then l
  else
    let c := 2 * start + 1
    let c2 := if c + 1 < size && cmp (lget l c) (lget l (c + 1)) then c + 1 else c
    if cmp (lget l c2) (lget l start) then l
    else siftLoop cmp size (lget l start) l start c2 size

/-- The descending loop of `makeHeap`: sift down at `start`, `start-1`, …, 0. -/
def makeHeapAux {α : Type} [Inhabited α] (cmp : α → α → Bool) (size : Nat) :
    List α → Nat → List α
  | l, 0 => siftDown cmp l size 0
  | l, s+1 => makeHeapAux cmp size (siftDown cmp l size (s+1)) s

/-- `makeHeap` of heap.ts: heapify the whole array. -/
def makeHeap {α : Type} [Inhabited α] (cmp : α → α → Bool) (l : List α) : List α :=
  if l.length > 1 then makeHeapAux cmp l.length l ((l.length - 2) / 2) else l

/-- The swap of the root and last element performed by `popHeap`
(both reads happen before the writes). -/
def swapEnds {α : Type} [Inhabited α] (l : List α) : List α :=
  (l.set 0 (lget l (l.length - 1))).set (l.length - 1) (lget l 0)

/-- `popHeap` of heap.ts: move the max to the last slot and restore the
heap property on the shortened range. -/
def popHeap {α : Type} [Inhabited α] (cmp : α → α → Bool) (l : List α) : List α :=
  if l.length > 1 then siftDown cmp (swapEnds l) (l.length - 1) 0 else l

/-! ### Metadata and options: `src/lib/loading/metadata.ts` -/

/-- `MetadataValue` of metadata.ts (tagged union). -/
inductive MetaValue where
  | mstring (v : String)
  | maccount (v : String)
  | mcurrency (v : String)
  | mdate (v : Int)
  | mnumber (v : ExactNum)
  | mamount (v : Amount)
deriving DecidableEq, Repr

/-- `Metadata` of metadata.ts. -/
abbrev Metadata := List (String × MetaValue)

/-- The frozen option map carried by every directive. -/
abbrev OptionMap := List (String × String)

/-- `Map.get(key, default)` on an option map. -/
def optGet (m : OptionMap) (k dflt : String) : String := (alookup m k).getD dflt

/-! ### Directives: `src/lib/loading/directive.ts` and
`src/lib/loading/directives/` -/

/-- `OpenDirective` (source context omitted; it only feeds messages). -/
structure OpenDirective where
  date : Int
  account : String
  currencies : List String
  meta : Metadata
  optionMap : OptionMap
deriving DecidableEq, Repr

/-- `CloseDirective`. -/
structure CloseDirective where
  date : Int
  account : String
  meta : Metadata
  optionMap : OptionMap
deriving DecidableEq, Repr

/-- One (account, amount, tolerance) triple of a balance directive. -/
structure BalanceSpec where
  account : String
  amount : Amount
  approx : Option ExactNum
deriving DecidableEq, Repr

/-- `BalanceDirective`. -/
structure BalanceDirective where
  date : Int
  balances : List BalanceSpec
  meta : Metadata
  optionMap : OptionMap
deriving DecidableEq, Repr

/-- `CurrencyDirective` of `src/lib/loading/directives/currency.ts`. -/
structure CurrencyDirective where
  date : Int
  currency : String
  meta : Metadata
  optionMap : OptionMap
deriving DecidableEq, Repr

/-- Evaluated `CostSpec` of `src/lib/loading/directives/transaction.ts`:
kind, amounts, and the reduction filter fields. -/
inductive CostKind where
  | perUnit
  | total
deriving DecidableEq, Repr

/-- Evaluated cost spec (single braces parse to per-unit, double to total). -/
structure CostSpec where
  kind : CostKind
  amounts : List Amount
  currencies : List String
  dateSpecs : List DateSpec
  dates : List Int
  tags : List String
deriving DecidableEq, Repr

/-- Input `Posting` of `src/lib/loading/directives/transaction.ts`. -/
structure Posting where
  account : String
  flag : String
  amount : Option Amount
  costSpec : Option CostSpec
  meta : Metadata
deriving DecidableEq, Repr

/-- `TransactionDirective`. -/
structure TransactionDirective where
  date : Int
  dateSpec : DateSpec
  description : String
  flag : String
  postings : List Posting
  meta : Metadata
  optionMap : OptionMap
deriving DecidableEq, Repr

/-- Account registry entry: the open or close directive currently in force
(`AccountMap` of `src/lib/booking/ledger.ts`). -/
inductive AccountDir where
  | opened (d : OpenDirective)
  | closed (d : CloseDirective)
deriving DecidableEq, Repr

/-- `AccountMap`. -/
abbrev AccountMap := List (String × AccountDir)

/-- The driver's directive stream.  The TS union
(`src/lib/loading/directive.ts`) has members balance/close/open/transaction
only; the extra `currency` member reaches the switch's `default` arm of
`book` in booking.ts, which rejects any directive kind it does not handle
(`DirectiveCommon<string>`). -/
inductive Directive where
  | balance (d : BalanceDirective)
  | close (d : CloseDirective)
  | openAccount (d : OpenDirective)
  | transaction (d : TransactionDirective)
  | currency (d : CurrencyDirective)
deriving DecidableEq, Repr

/-! ### Errors (§7); the TS surfaces them as `Error` messages carrying the
same data, the driver enriches with the directive. -/

/-- `BookedPosting` of `src/lib/booking/transaction.ts`. -/
structure BookedPosting where
  account : String
  flag : String
  amount : Amount
  cost : Option Cost
  meta : Metadata
deriving DecidableEq, Repr

/-- Booking errors, with the data their TS messages carry. -/
inductive Err where
  | invalidRefChecksMode (mode : String)
  | accountClosed (account : String)
  | accountNotOpen (account : String)
  | alreadyOpen (account : String)
  | alreadyClosed (account : String)
  | notImplemented (dtype : String)
  | balanceMismatch (account : String) (expected actual delta maxDelta : Amount)
  | transactionUnbalanced (residual : Inventory)
  | notEnoughToReduce (account : String) (remainder : Amount)
  | augmentationMultipleDates
  | augmentationHasCurrencies
  | inferenceUnsupported
  | currencyNotAllowed (account currency : String)
  | unknownBookingMethod (name : String)
deriving DecidableEq, Repr

/-! ### Booking methods: `LifoBookingMethod.book` (src/unnamed/part_002)
and the FIFO mirror. -/

/-- The shared lot-consumption loop of the FIFO/LIFO `book` methods:
while the amount is non-zero, pop the top lot off the heap; skip
same-sign lots; otherwise take `min(|lot|, |remaining|)` with the sign of
`lot.neg`, put the taken part back (reducing the lot), emit the posting
and continue.
The fuel only bounds the recursion so that the kernel can evaluate it; the
loop consumes one list element per round, so with `fuel = positions.length`
the zero-fuel arm is unreachable and the function equals the JS loop. -/
def bookLoop (cmp : Position → Position → Bool) (account flag : String)
    (meta : Metadata) : Nat → List Position → Amount → Inventory →
    List BookedPosting → Except Err (List BookedPosting × Inventory)
  | fuel, positions, amount, inventory, acc =>
    if amount.isZero then .ok (acc, inventory)
    else if positions.length = 0 then .error (.notEnoughToReduce account amount)
    else
      match fuel with
      | 0 => .error (.notEnoughToReduce account amount)
      | fuel' + 1 =>
        let ps := popHeap cmp positions
        let position := lget ps (ps.length - 1)
        let ps2 := ps.dropLast
        if position.amount.isPos == amount.isPos then
          bookLoop cmp account flag meta fuel' ps2 amount inventory acc
        else
          let toAdd :=
            if position.amount.abs.lte amount.abs then position.amount.neg else amount
          bookLoop cmp account flag meta fuel' ps2 (amount.sub toAdd)
            (inventory.addPosition ⟨toAdd, position.cost⟩)
            (acc ++ [⟨account, flag, toAdd, position.cost, meta⟩])

/-- The common body of the booking methods: collect the positions of the
target currency held at cost, heapify with the method's comparator, and
run the consumption loop. -/
def methodBook (cmp : Position → Position → Bool) (account flag : String)
    (meta : Metadata) (amount : Amount) (inventory : Inventory) :
    Except Err (List BookedPosting × Inventory) :=
  let positions :=
    (inventory.getPositionsForCurrency amount.currency).filter (fun p => p.cost.isSome)
  bookLoop cmp account flag meta positions.length (makeHeap cmp positions) amount inventory []

/-- LIFO comparator (part_002): `a.cost.date.getTime() < b.cost.date.getTime()`,
so the max-heap surfaces the newest lot. -/
def lifoCmp (a b : Position) : Bool := decide (posDate a < posDate b)

/-- FIFO comparator (`>`, as in the earlier fifo.ts of the snapshot), so
the max-heap surfaces the oldest lot. -/
def fifoCmp (a b : Position) : Bool := decide (posDate b < posDate a)

/-- `LIFO.book` of src/unnamed/part_002. -/
def lifoBook : String → String → Metadata → Amount → Inventory →
    Except Err (List BookedPosting × Inventory) := methodBook lifoCmp

/-- Modelled from the spec: the current fifo.ts is not in the snapshot
(only an earlier revision and the LIFO twin are).  Per §4.3 FIFO runs the
same shared algorithm with the oldest lot first; the comparator `>` is the
one of the earlier fifo.ts. -/
def fifoBook : String → String → Metadata → Amount → Inventory →
    Except Err (List BookedPosting × Inventory) := methodBook fifoCmp

/-- The two registered booking methods. -/
inductive BookMethod where
  | fifo
  | lifo
deriving DecidableEq, Repr

/-- Dispatch a booking method to its `book` implementation. -/
def runMethod : BookMethod → String → String → Metadata → Amount → Inventory →
    Except Err (List BookedPosting × Inventory)
  | .fifo => fifoBook
  | .lifo => lifoBook

/-! ### Transaction booker: `src/lib/booking/booking.ts` -/

/-- `checkValidAccount` of booking.ts. -/
def checkValidAccount (accountMap : AccountMap) (optionMap : OptionMap)
    (account : String) (allowClosed : Bool) : Except Err (Option AccountDir) :=
  let state := alookup accountMap account
  let mode := optGet optionMap "account-reference-checks" "lenient"
  if ¬(mode = "none" ∨ mode = "lenient" ∨ mode = "strict") then
    .error (.invalidRefChecksMode mode)
  else if mode = "none" then .ok state
  else
    match state with
    | some (.closed d) =>
      if allowClosed then .ok (some (.closed d)) else .error (.accountClosed account)
    | none => if mode = "strict" then .error (.accountNotOpen account) else .ok none
    | some (.opened d) => .ok (some (.opened d))

/-- `getTradingAccount` of booking.ts: first account-typed
`trading-account` metadata hit among posting, transaction and open
directive, else the literal default. -/
def getTradingAccount (tx : TransactionDirective) (posting : Posting)
    (openDir : Option OpenDirective) : String :=
  match alookup posting.meta "trading-account" with
  | some (.maccount v) => v
  | _ =>
    match alookup tx.meta "trading-account" with
    | some (.maccount v) => v
    | _ =>
      match openDir.bind (fun d => alookup d.meta "trading-account") with
      | some (.maccount v) => v
      | _ => "Trading:Default"

/-- `getBookingMethod` of booking.ts: first string-typed `booking-method`
metadata hit, else the transaction option map, default `fifo`. -/
def getBookingMethod (tx : TransactionDirective) (posting : Posting)
    (openDir : Option OpenDirective) : Except Err BookMethod :=
  let name :=
    match alookup posting.meta "booking-method" with
    | some (.mstring v) => v
    | _ =>
      match alookup tx.meta "booking-method" with
      | some (.mstring v) => v
      | _ =>
        match openDir.bind (fun d => alookup d.meta "booking-method") with
        | some (.mstring v) => v
        | _ => optGet tx.optionMap "booking-method" "fifo"
  if name = "fifo" then .ok .fifo
  else if name = "lifo" then .ok .lifo
  else .error (.unknownBookingMethod name)

/-- `validateCostSpecForAugmentation` of booking.ts. -/
def validateCostSpecForAugmentation (cs : CostSpec) : Except Err Unit :=
  if cs.dates.length > 1 ∨ cs.dateSpecs.length > 1 then .error .augmentationMultipleDates
  else if cs.currencies.length > 0 then .error .augmentationHasCurrencies
  else .ok ()

/-- `getTotalAmount` of booking.ts. -/
def getTotalAmount (amount baseAmount : Amount) (cs : CostSpec) : Amount :=
  if cs.kind = .total then amount else amount.mul baseAmount.amount

/-- `getPerUnitAmount` of booking.ts. -/
def getPerUnitAmount (amount baseAmount : Amount) (cs : CostSpec) : Amount :=
  if cs.kind = .perUnit then amount else amount.div baseAmount.amount

/-- The structural date-spec match of `filterInventoryForReduction`. -/
def dateSpecMatches (dateSpec mtch : DateSpec) : Bool :=
  if dateSpec.date ≠ mtch.date then false
  else if mtch.time = none then true
  else if dateSpec.time ≠ mtch.time then false
  else if mtch.timezone = none then true
  else dateSpec.timezone == mtch.timezone

/-- The reduction filter predicate over a position's cost. -/
def reductionPred (cs : CostSpec) (p : Position) : Bool :=
  match p.cost with
  | none => false
  | some cost =>
    let currencyMatch :=
      cs.currencies.isEmpty ||
        cost.amounts.any (fun a => cs.currencies.contains a.currency)
    let tagsMatch := cs.tags.isEmpty || cost.tags.any (fun t => cs.tags.contains t)
    let timestampMatch := !cs.dates.isEmpty && cs.dates.contains cost.date
    let dateSpecMatch :=
      !cs.dateSpecs.isEmpty && cs.dateSpecs.any (fun ds => dateSpecMatches cost.dateSpec ds)
    let timestampWild := cs.dates.isEmpty
    let dateSpecWild := cs.dateSpecs.isEmpty
    currencyMatch && tagsMatch &&
      ((timestampWild || timestampMatch) || (dateSpecWild || dateSpecMatch))

/-- `partitionInventory` of booking.ts. -/
def partitionInventory (inventory : Inventory) (pred : Position → Bool) :
    Inventory × Inventory :=
  let ok := inventory.getPositions.filter pred
  let ko := inventory.getPositions.filter (fun p => !pred p)
  if ok.isEmpty then (Inventory.Empty, inventory)
  else if ko.isEmpty then (inventory, Inventory.Empty)
  else (Inventory.Empty.addPositions ok, Inventory.Empty.addPositions ko)

/-- `filterInventoryForReduction` of booking.ts. -/
def filterInventoryForReduction (inventory : Inventory) (cs : CostSpec) :
    Inventory × Inventory :=
  partitionInventory inventory (reductionPred cs)

/-- `mergeInventories` of booking.ts. -/
def mergeInventories (a b : Inventory) : Inventory :=
  if a.isEmpty then b else if b.isEmpty then a else a.addPositions b.getPositions

/-- `doBook` of booking.ts: add every posting's amount to its account's
inventory (as a position with the optional cost) and to the running
balance; return the postings with the new snapshots. -/
def doBook (inventories : InventoryMap) (balance : Inventory)
    (postings : List BookedPosting) :
    List BookedPosting × InventoryMap × Inventory :=
  let st := postings.foldl
    (fun (st : InventoryMap × Inventory) p =>
      (aset st.1 p.account
        (((alookup st.1 p.account).getD Inventory.Empty).addPosition ⟨p.amount, p.cost⟩),
       st.2.addAmount p.amount))
    (inventories, balance)
  (postings, st.1, st.2)

/-- The open directive behind an account state (`accountDirective?.directive`
when the account is open). -/
def openDirOf (accountDirective : Option AccountDir) : Option OpenDirective :=
  match accountDirective with
  | some (.opened d) => some d
  | _ => none

/-- The currency restriction of an account check (empty when unrestricted). -/
def allowedCurrencies (accountCheck : Option AccountDir) : List String :=
  match accountCheck with
  | some (.opened d) => d.currencies
  | _ => []

/-- One round of the reduction-posting loop of `bookPosting` case B: book
the reduction posting, its trading counter-posting and the per-cost-amount
trading postings through `doBook`, appending the results. -/
def reductionFoldStep (tradingAccount : String)
    (st : List BookedPosting × InventoryMap × Inventory) (rp : BookedPosting) :
    List BookedPosting × InventoryMap × Inventory :=
  let got := doBook st.2.1 st.2.2
    ([rp,
      { account := tradingAccount
        flag := rp.flag
        amount := rp.amount.neg
        cost := none
        meta := [] }] ++
      ((rp.cost.map (fun c => c.amounts)).getD []).map (fun c =>
        { account := tradingAccount
          flag := rp.flag
          amount := c.mul rp.amount.amount
          cost := none
          meta := ([] : Metadata) }))
  (st.1 ++ got.1, got.2.1, got.2.2)

/-- `bookPosting` of booking.ts: the five posting cases (§4.4). -/
def bookPosting (tx : TransactionDirective) (posting : Posting)
    (inventories : InventoryMap) (balance : Inventory)
    (accountDirective : Option AccountDir) :
    Except Err (List BookedPosting × InventoryMap × Inventory) :=
  let openDir : Option OpenDirective := openDirOf accountDirective
  match posting.costSpec with
  | some cs =>
    let tradingAccount := getTradingAccount tx posting openDir
    match posting.amount with
    | some pa =>
      if cs.amounts.length > 0 then
        -- Case A: augmentation.
        match validateCostSpecForAugmentation cs with
        | .error e => .error e
        | .ok _ =>
          .ok (doBook inventories balance
            ([{ account := posting.account
                flag := posting.flag
                amount := pa
                cost := some
                  { amounts := cs.amounts.map (fun am => getPerUnitAmount am pa cs)
                    date := match cs.dates with | [d] => d | _ => tx.date
                    dateSpec := match cs.dateSpecs with | [ds] => ds | _ => tx.dateSpec
                    tags := cs.tags }
                meta := posting.meta },
              { account := tradingAccount
                flag := posting.flag
                amount := pa.neg
                cost := none
                meta := [] }] ++
              cs.amounts.map (fun am =>
                { account := tradingAccount
                  flag := posting.flag
                  amount := getTotalAmount am pa cs
                  cost := none
                  meta := ([] : Metadata) })))
      else
        -- Case B: reduction via the booking method.
        let parts := filterInventoryForReduction
          ((alookup inventories posting.account).getD Inventory.Empty) cs
        match getBookingMethod tx posting openDir with
        | .error e => .error e
        | .ok m =>
          match runMethod m posting.account posting.flag posting.meta pa parts.1 with
          | .error e => .error e
          | .ok (rps, leftover) =>
            let st := rps.foldl (reductionFoldStep tradingAccount)
              ([], inventories, balance)
            .ok (st.1,
              aset st.2.1 posting.account (mergeInventories parts.2 leftover),
              st.2.2)
    | none => .error .inferenceUnsupported
  | none =>
    match posting.amount with
    | some pa =>
      -- Case D: fully specified posting.
      .ok (doBook inventories balance
        [{ account := posting.account
           flag := posting.flag
           amount := pa
           cost := none
           meta := posting.meta }])
    | none =>
      -- Case E: elastic posting balancing out the running balance.
      .ok (doBook inventories balance
        (balance.getPositions.map (fun p =>
          { account := posting.account
            flag := posting.flag
            amount := p.amount.neg
            cost := none
            meta := posting.meta })))

/-- One round of the posting loop of `bookTransaction`: account check,
posting booking and the currency restriction check, accumulating postings,
inventories and the running balance. -/
def bookPostingStep (tx : TransactionDirective) (accountMap : AccountMap)
    (st : List BookedPosting × InventoryMap × Inventory) (posting : Posting) :
    Except Err (List BookedPosting × InventoryMap × Inventory) :=
  match checkValidAccount accountMap tx.optionMap posting.account false with
  | .error e => .error e
  | .ok accountCheck =>
    match bookPosting tx posting st.2.1 st.2.2 accountCheck with
    | .error e => .error e
    | .ok (bps, invs, bal) =>
      let allowed := allowedCurrencies accountCheck
      if allowed.length > 0 then
        match bps.find? (fun bp => !(allowed.contains bp.amount.currency)) with
        | some bp => .error (.currencyNotAllowed bp.account bp.amount.currency)
        | none => .ok (st.1 ++ bps, invs, bal)
      else .ok (st.1 ++ bps, invs, bal)

/-- The posting loop of `bookTransaction`. -/
def bookPostingsFold (tx : TransactionDirective) (inventories : InventoryMap)
    (accountMap : AccountMap) :
    Except Err (List BookedPosting × InventoryMap × Inventory) :=
  tx.postings.foldlM (bookPostingStep tx accountMap) ([], inventories, Inventory.Empty)

/-- A booked `Transaction` of `src/lib/booking/transaction.ts`. -/
structure Transaction where
  date : Int
  description : String
  flag : String
  postings : List BookedPosting
  meta : Metadata
  inventoriesBefore : InventoryMap
  inventoriesAfter : InventoryMap
deriving DecidableEq, Repr

/-- `bookTransaction` of booking.ts: run the posting loop, then require an
empty running balance. -/
def bookTransaction (tx : TransactionDirective) (inventories : InventoryMap)
    (accountMap : AccountMap) : Except Err Transaction :=
  match bookPostingsFold tx inventories accountMap with
  | .error e => .error e
  | .ok (postings, invs, bal) =>
    if bal.isEmpty then
      .ok { date := tx.date
            description := tx.description
            flag := tx.flag
            postings := postings
            meta := tx.meta
            inventoriesBefore := inventories
            inventoriesAfter := invs }
    else .error (.transactionUnbalanced bal)

/-! ### Ledger booker (driver): `book` of booking.ts -/

/-- The driver's running state (the fields of the final `BookedLedger`). -/
structure DriverState where
  transactions : List Transaction
  accountMap : AccountMap
  currencyMap : List (String × CurrencyDirective)
  inventories : InventoryMap
deriving DecidableEq, Repr

/-- One (account, amount, tolerance) triple of the driver's balance case:
sum the account's positions of the expected currency, compare
`|expected - actual|` against `|tolerance|` (default zero). -/
def bookBalanceOne (accountMap : AccountMap) (optionMap : OptionMap)
    (inventories : InventoryMap) (b : BalanceSpec) : Except Err Unit :=
  match checkValidAccount accountMap optionMap b.account true with
  | .error e => .error e
  | .ok _ =>
    let inventory := (alookup inventories b.account).getD Inventory.Empty
    let actual := (inventory.getPositionsForCurrency b.amount.currency).foldl
      (fun acc v => acc.add v.amount) (Amount.zero b.amount.currency)
    let delta := b.amount.sub actual
    let maxDelta : Amount := ⟨(b.approx.getD ⟨0, 1⟩).abs, b.amount.currency⟩
    if delta.abs.gt maxDelta then
      .error (.balanceMismatch b.account b.amount actual delta maxDelta)
    else .ok ()

/-- One step of the driver's directive dispatch (`book` of booking.ts). -/
def bookStep (st : DriverState) : Directive → Except Err DriverState
  | .balance d =>
    match d.balances.foldlM
      (fun (_ : Unit) b => bookBalanceOne st.accountMap d.optionMap st.inventories b) () with
    | .error e => .error e
    | .ok _ => .ok st
  | .close d =>
    match checkValidAccount st.accountMap d.optionMap d.account true with
    | .error e => .error e
    | .ok s =>
      match s with
      | some (.closed _) => .error (.alreadyClosed d.account)
      | _ => .ok { st with accountMap := aset st.accountMap d.account (.closed d) }
  | .openAccount d =>
    match alookup st.accountMap d.account with
    | some (.opened _) => .error (.alreadyOpen d.account)
    | _ => .ok { st with accountMap := aset st.accountMap d.account (.opened d) }
  | .transaction d =>
    match bookTransaction d st.inventories st.accountMap with
    | .error e => .error e
    | .ok t =>
      .ok { st with
            transactions := st.transactions ++ [t]
            inventories := t.inventoriesAfter }
  | .currency _ => .error (.notImplemented "currency")

/-- A loaded `Ledger` (`src/lib/loading/ledger.ts`). -/
structure Ledger where
  directives : List Directive
  currencyMap : List (String × CurrencyDirective)
deriving DecidableEq, Repr

/-- `book` of booking.ts without a starting state: walk the directives,
threading the driver state; halt at the first error. -/
def bookLedger (ledger : Ledger) : Except Err DriverState :=
  ledger.directives.foldlM bookStep
    { transactions := []
      accountMap := []
      currencyMap := ledger.currencyMap
      inventories := [] }

/-! ### Loader currency handling: `doLoad` of loader.ts (src/unnamed/part_016) -/

/-- The two surface keywords routed to the same loader branch. -/
inductive LoadKeyword where
  | currency
  | commodity
deriving DecidableEq, Repr

/-- A parsed currency/commodity declaration reaching the loader. -/
structure CurrencyLoadDirective where
  keyword : LoadKeyword
  currency : String
  date : Int
  meta : Metadata
deriving DecidableEq, Repr

/-- Loader errors relevant here. -/
inductive LoadErr where
  | currencyAlreadyDefined (currency : String)
deriving DecidableEq, Repr

/-- The `case 'commodity': case 'currency':` branch of `doLoad`: fail if
the currency is already registered, else record the currency directive in
the loader's currency map. -/
def loadCurrencyStep (currencyMap : List (String × CurrencyDirective))
    (optionMap : OptionMap) (d : CurrencyLoadDirective) :
    Except LoadErr (List (String × CurrencyDirective)) :=
  match alookup currencyMap d.currency with
  | some _ => .error (.currencyAlreadyDefined d.currency)
  | none =>
    .ok (aset currencyMap d.currency
      { date := d.date
        currency := d.currency
        meta := d.meta
        optionMap := optionMap })

/-- Extracts the per-unit cost amounts of the first booked posting. -/
def headCostAmounts (r : Except Err (List BookedPosting × InventoryMap × Inventory)) :
    List Amount :=
  match r with
  | .ok (bp :: _, _, _) =>
    match bp.cost with
    | some c => c.amounts
    | none => []
  | _ => []

/-- The costs of the postings emitted by a booking method, in order. -/
def emittedCosts (r : Except Err (List BookedPosting × Inventory)) : List (Option Cost) :=
  match r with
  | .ok (bps, _) => bps.map (fun bp => bp.cost)
  | .error _ => []

/-- Three lots of equal date, inserted with costs 1, 2 and 3 CHF. -/
def tieInv : Inventory := Inventory.Empty.addPositions
  [⟨⟨⟨1, 1⟩, "USD"⟩, some ⟨[⟨⟨1, 1⟩, "CHF"⟩], 100, ⟨"", none, none⟩, []⟩⟩,
   ⟨⟨⟨1, 1⟩, "USD"⟩, some ⟨[⟨⟨2, 1⟩, "CHF"⟩], 100, ⟨"", none, none⟩, []⟩⟩,
   ⟨⟨⟨1, 1⟩, "USD"⟩, some ⟨[⟨⟨3, 1⟩, "CHF"⟩], 100, ⟨"", none, none⟩, []⟩⟩]

/-- A two-currency sample inventory. -/
def invC4 : Inventory :=
  ⟨[("USD", [⟨⟨⟨1, 1⟩, "USD"⟩, none⟩]), ("CHF", [⟨⟨⟨2, 1⟩, "CHF"⟩, none⟩])]⟩

/-- A position cancelling the USD lot of `invC4`. -/
def pC4 : Position := ⟨⟨⟨-1, 1⟩, "USD"⟩, none⟩

/-- The `actual` of one balance triple: the sum of the account's
positions of the expected currency (the let of `bookBalanceOne`). -/
def balActual (invs : InventoryMap) (b : BalanceSpec) : Amount :=
  ((((alookup invs b.account).getD Inventory.Empty).getPositionsForCurrency
      b.amount.currency).foldl (fun acc v => acc.add v.amount)
    (Amount.zero b.amount.currency))

/-- The reported delta: `expected - actual`. -/
def balDelta (invs : InventoryMap) (b : BalanceSpec) : Amount :=
  b.amount.sub (balActual invs b)

/-- The reported max-delta: the absolute tolerance (default zero). -/
def balMaxDelta (b : BalanceSpec) : Amount :=
  ⟨(b.approx.getD ⟨0, 1⟩).abs, b.amount.currency⟩

/-- Account map of scenario S5: `Assets:Bank` is open. -/
def am5 : AccountMap := [("Assets:Bank", .opened ⟨0, "Assets:Bank", [], [], []⟩)]

/-- Inventories of scenario S5: `Assets:Bank` holds `10.00 CHF`. -/
def invs5 : InventoryMap := [("Assets:Bank", ⟨[("CHF", [⟨⟨⟨10, 1⟩, "CHF"⟩, none⟩])]⟩)]

/-- S5 balance triple `10.01 CHF ~ 0.005`. -/
def b5fail : BalanceSpec := ⟨"Assets:Bank", ⟨⟨1001, 100⟩, "CHF"⟩, some ⟨1, 200⟩⟩

/-- S5 balance triple `10.01 CHF ~ 0.02`. -/
def b5ok : BalanceSpec := ⟨"Assets:Bank", ⟨⟨1001, 100⟩, "CHF"⟩, some ⟨1, 50⟩⟩

/-- The total rational value a currency holds in an inventory. -/
noncomputable def invValC (inv : Inventory) (c : String) : ℚ :=
  (((alookup inv.entries c).getD []).map (fun p => p.amount.amount.val)).sum

/-- The rational sum of an amount list restricted to one currency. -/
noncomputable def amountsValC (amts : List Amount) (c : String) : ℚ :=
  (amts.map (fun a => if a.currency = c then a.amount.val else 0)).sum

/-- Distinct currency keys, positive denominators: what the value
lemmas need of an inventory. -/
def Inventory.DPos (inv : Inventory) : Prop :=
  (inv.entries.map Prod.fst).Nodup ∧
    ∀ e ∈ inv.entries, ∀ p ∈ e.2, 0 < p.amount.amount.den

/-- A balanced sample transaction: `Assets:A +10 USD`, `Assets:B -10 USD`. -/
def txC1 : TransactionDirective :=
  ⟨600, ⟨"", none, none⟩, "move", "*",
    [⟨"Assets:A", "*", some ⟨⟨10, 1⟩, "USD"⟩, none, []⟩,
     ⟨"Assets:B", "*", some ⟨⟨-10, 1⟩, "USD"⟩, none, []⟩], [], []⟩

/-- An unbalanced sample transaction: a lone `Assets:A +10 USD` posting. -/
def txC1bad : TransactionDirective :=
  ⟨601, ⟨"", none, none⟩, "bad", "*",
    [⟨"Assets:A", "*", some ⟨⟨10, 1⟩, "USD"⟩, none, []⟩], [], []⟩

/-- The booked form of `txC1`. -/
def tC1 : Transaction :=
  ⟨600, "move", "*",
   [⟨"Assets:A", "*", ⟨⟨10, 1⟩, "USD"⟩, none, []⟩,
    ⟨"Assets:B", "*", ⟨⟨-10, 1⟩, "USD"⟩, none, []⟩],
   [], [],
   [("Assets:A", ⟨[("USD", [⟨⟨⟨10, 1⟩, "USD"⟩, none⟩])]⟩),
    ("Assets:B", ⟨[("USD", [⟨⟨⟨-10, 1⟩, "USD"⟩, none⟩])]⟩)]⟩

/-- The non-empty running balance `txC1bad` leaves. -/
def balC1bad : Inventory := ⟨[("USD", [⟨⟨⟨10, 1⟩, "USD"⟩, none⟩])]⟩

/-- `Desc s i`: index `i` lies in the binary-heap subtree rooted at `s`
(children of `i` are `2i+1` and `2i+2`). -/
inductive Desc (s : Nat) : Nat → Prop where
  | refl : Desc s s
  | left {i : Nat} : Desc s i → Desc s (2 * i + 1)
  | right {i : Nat} : Desc s i → Desc s (2 * i + 2)

/-- Comparator induced by an integer key. -/
def keyCmp {α : Type} (f : α → Int) (a b : α) : Bool := decide (f a < f b)

/-- Per-pair max-heap property at a child index. -/
def PairOK {α : Type} [Inhabited α] (f : α → Int) (l : List α) (c : Nat) : Prop :=
  f (lget l c) ≤ f (lget l ((c - 1) / 2))

/-- The max-heap property on the first `size` slots. -/
def IsKeyHeap {α : Type} [Inhabited α] (f : α → Int) (l : List α) (size : Nat) : Prop :=
  ∀ c, 0 < c → c < size → PairOK f l c

/-- The lot date behind an optional cost (`cost.date.getTime()`, 0 if costless). -/
def lotDate (oc : Option Cost) : Int :=
  match oc with
  | some c => c.date
  | none => 0

/-- Scenario S2: three 1 USD lots costed 1.1, 1.2 and 1.3 CHF, dated
2025-04-01, -02 and -03. -/
def s2Inv : Inventory := Inventory.Empty.addPositions
  [⟨⟨⟨1, 1⟩, "USD"⟩, some ⟨[⟨⟨11, 10⟩, "CHF"⟩], 20250401, ⟨"2025-04-01", none, none⟩, []⟩⟩,
   ⟨⟨⟨1, 1⟩, "USD"⟩, some ⟨[⟨⟨6, 5⟩, "CHF"⟩], 20250402, ⟨"2025-04-02", none, none⟩, []⟩⟩,
   ⟨⟨⟨1, 1⟩, "USD"⟩, some ⟨[⟨⟨13, 10⟩, "CHF"⟩], 20250403, ⟨"2025-04-03", none, none⟩, []⟩⟩]

/-- The 1.1 CHF lot cost of S2. -/
def s2Cost1 : Cost := ⟨[⟨⟨11, 10⟩, "CHF"⟩], 20250401, ⟨"2025-04-01", none, none⟩, []⟩

/-- The 1.2 CHF lot cost of S2. -/
def s2Cost2 : Cost := ⟨[⟨⟨6, 5⟩, "CHF"⟩], 20250402, ⟨"2025-04-02", none, none⟩, []⟩

/-- The 1.3 CHF lot cost of S2. -/
def s2Cost3 : Cost := ⟨[⟨⟨13, 10⟩, "CHF"⟩], 20250403, ⟨"2025-04-03", none, none⟩, []⟩

/-- The postings S2 expects from LIFO: -1 at 1.3, -1 at 1.2, -0.6 at 1.1. -/
def s2LifoPostings : List BookedPosting :=
  [⟨"Assets:Broker", "*", ⟨⟨-1, 1⟩, "USD"⟩, some s2Cost3, []⟩,
   ⟨"Assets:Broker", "*", ⟨⟨-1, 1⟩, "USD"⟩, some s2Cost2, []⟩,
   ⟨"Assets:Broker", "*", ⟨⟨-3, 5⟩, "USD"⟩, some s2Cost1, []⟩]

/-- The S2 leftover: 0.4 USD at the 1.1 CHF lot. -/
def s2LifoLeft : Inventory := ⟨[("USD", [⟨⟨⟨2, 5⟩, "USD"⟩, some s2Cost1⟩])]⟩

theorem length_set_any {α : Type} (l : List α) (i : Nat) (x : α) :
    (l.set i x).length = l.length := List.length_set ..

theorem length_siftLoop {α : Type} [Inhabited α] (cmp : α → α → Bool)
    (size : Nat) (top : α) :
    ∀ fuel l start child, (siftLoop cmp size top l start child fuel).length = l.length := by
  intro fuel
  induction fuel with
  | zero => intro l start child; simp [siftLoop]
  | succ n ih =>
    intro l start child
    simp only [siftLoop]
    repeat' split
    all_goals simp [ih]

theorem length_siftDown {α : Type} [Inhabited α] (cmp : α → α → Bool)
    (l : List α) (size start : Nat) :
    (siftDown cmp l size start).length = l.length := by
  simp only [siftDown]
  repeat' split
  all_goals first
  | rfl
  | rw [length_siftLoop]

theorem length_makeHeapAux {α : Type} [Inhabited α] (cmp : α → α → Bool)
    (size : Nat) : ∀ start l, (makeHeapAux cmp size l start).length = l.length := by
  intro start
  induction start with
  | zero => intro l; simp [makeHeapAux, length_siftDown]
  | succ n ih => intro l; simp [makeHeapAux, ih, length_siftDown]

theorem length_makeHeap {α : Type} [Inhabited α] (cmp : α → α → Bool) (l : List α) :
    (makeHeap cmp l).length = l.length := by
  simp only [makeHeap]
  split
  · rw [length_makeHeapAux]
  · rfl

theorem length_swapEnds {α : Type} [Inhabited α] (l : List α) :
    (swapEnds l).length = l.length := by
  simp [swapEnds]

theorem length_popHeap {α : Type} [Inhabited α] (cmp : α → α → Bool) (l : List α) :
    (popHeap cmp l).length = l.length := by
  simp only [popHeap]
  split
  · rw [length_siftDown, length_swapEnds]
  · rfl

/-! ### Value semantics of the exact rationals -/

theorem ExactNum.norm_den_pos (q : ExactNum) (h : 0 < q.den) : 0 < q.norm.den := by
  unfold ExactNum.norm
  split
  · exact h
  · have hgpos : 0 < Nat.gcd q.num.natAbs q.den := Nat.gcd_pos_of_pos_right _ h
    have hdvd : Nat.gcd q.num.natAbs q.den ∣ q.den := Nat.gcd_dvd_right _ _
    exact Nat.div_pos (Nat.le_of_dvd h hdvd) hgpos

theorem ExactNum.norm_wf (q : ExactNum) (h : 0 < q.den) : q.norm.Wf := by
  unfold ExactNum.norm
  split
  · exact ⟨h, by assumption⟩
  · have hgpos : 0 < Nat.gcd q.num.natAbs q.den := Nat.gcd_pos_of_pos_right _ h
    have hdvd : Nat.gcd q.num.natAbs q.den ∣ q.den := Nat.gcd_dvd_right _ _
    refine ⟨Nat.div_pos (Nat.le_of_dvd h hdvd) hgpos, ?_⟩
    have hnum : (q.num.tdiv (Nat.gcd q.num.natAbs q.den)).natAbs
        = q.num.natAbs / Nat.gcd q.num.natAbs q.den := Int.natAbs_tdiv _ _
    simp only [hnum]
    exact Nat.coprime_div_gcd_div_gcd hgpos

theorem ExactNum.norm_val (q : ExactNum) (h : 0 < q.den) : q.norm.val = q.val := by
  unfold ExactNum.norm
  split
  · rfl
  · set g := Nat.gcd q.num.natAbs q.den with hg
    have hgpos : 0 < g := Nat.gcd_pos_of_pos_right _ h
    have hg0 : (g : Int) ≠ 0 := by exact_mod_cast hgpos.ne'
    have h1 : g ∣ q.num.natAbs := by rw [hg]; exact Nat.gcd_dvd_left _ _
    obtain ⟨k, hk⟩ : (g : Int) ∣ q.num := Int.natAbs_dvd_natAbs.mp (by simpa using h1)
    obtain ⟨m, hm⟩ : g ∣ q.den := by rw [hg]; exact Nat.gcd_dvd_right _ _
    have htd : q.num.tdiv g = k := by rw [hk, Int.mul_tdiv_cancel_left k hg0]
    have hdg : q.den / g = m := by rw [hm, Nat.mul_div_cancel_left m hgpos]
    simp only [ExactNum.val, htd, hdg]
    rw [hk, hm]
    push_cast
    rw [mul_div_mul_left _ _ (by exact_mod_cast hgpos.ne' : ((g : ℚ)) ≠ 0)]

theorem ExactNum.add_den_pos (a b : ExactNum) (ha : 0 < a.den) (hb : 0 < b.den) :
    0 < (a.add b).den := ExactNum.norm_den_pos _ (Nat.mul_pos ha hb)

theorem ExactNum.add_wf (a b : ExactNum) (ha : 0 < a.den) (hb : 0 < b.den) :
    (a.add b).Wf := ExactNum.norm_wf _ (Nat.mul_pos ha hb)

theorem ExactNum.add_val (a b : ExactNum) (ha : 0 < a.den) (hb : 0 < b.den) :
    (a.add b).val = a.val + b.val := by
  unfold ExactNum.add
  rw [ExactNum.norm_val _ (Nat.mul_pos ha hb)]
  have ha' : ((a.den : ℚ)) ≠ 0 := Nat.cast_ne_zero.mpr ha.ne'
  have hb' : ((b.den : ℚ)) ≠ 0 := Nat.cast_ne_zero.mpr hb.ne'
  simp only [ExactNum.val]
  push_cast
  field_simp

theorem ExactNum.neg_val (a : ExactNum) : a.neg.val = -a.val := by
  simp [ExactNum.neg, ExactNum.val, neg_div]

theorem ExactNum.neg_wf (a : ExactNum) (h : a.Wf) : a.neg.Wf := by
  obtain ⟨h1, h2⟩ := h
  exact ⟨h1, by simpa [ExactNum.neg] using h2⟩

theorem ExactNum.sub_val (a b : ExactNum) (ha : 0 < a.den) (hb : 0 < b.den) :
    (a.sub b).val = a.val - b.val := by
  unfold ExactNum.sub
  rw [ExactNum.add_val a b.neg ha (by simpa [ExactNum.neg] using hb), ExactNum.neg_val]
  ring

theorem ExactNum.sub_wf (a b : ExactNum) (ha : 0 < a.den) (hb : 0 < b.den) :
    (a.sub b).Wf := ExactNum.add_wf _ _ ha (by simpa [ExactNum.neg] using hb)

theorem ExactNum.mul_val (a b : ExactNum) (ha : 0 < a.den) (hb : 0 < b.den) :
    (a.mul b).val = a.val * b.val := by
  unfold ExactNum.mul
  rw [ExactNum.norm_val _ (Nat.mul_pos ha hb)]
  simp only [ExactNum.val]
  push_cast
  rw [div_mul_div_comm]

theorem ExactNum.mul_wf (a b : ExactNum) (ha : 0 < a.den) (hb : 0 < b.den) :
    (a.mul b).Wf := ExactNum.norm_wf _ (Nat.mul_pos ha hb)

theorem ExactNum.inv_val (a : ExactNum) : a.inv.val = (a.val)⁻¹ := by
  unfold ExactNum.inv
  split
  · rename_i hneg
    have hq : ((a.num.natAbs : ℚ)) = -((a.num : ℚ)) := by
      rw [Int.cast_natAbs, abs_of_neg hneg]
      push_cast
      ring
    simp only [ExactNum.val, hq]
    push_cast
    rw [inv_div, neg_div_neg_eq]
  · split
    · rename_i hz
      simp [ExactNum.val, hz]
    · rename_i hneg hz
      have hpos : (0 : Int) < a.num := by omega
      have hq : ((a.num.natAbs : ℚ)) = ((a.num : ℚ)) := by
        rw [Int.cast_natAbs, abs_of_pos hpos]
      simp only [ExactNum.val, hq]
      push_cast
      rw [inv_div]

theorem ExactNum.inv_den_pos (a : ExactNum) (ha : 0 < a.den) (hn : a.num ≠ 0) :
    0 < a.inv.den := by
  unfold ExactNum.inv
  by_cases h1 : a.num < 0
  · simp only [if_pos h1]
    simpa using hn
  · simp only [if_neg h1, if_neg hn]
    simpa using hn

theorem ExactNum.div_val (a b : ExactNum) (ha : 0 < a.den) (hb : 0 < b.den)
    (hn : b.num ≠ 0) : (a.div b).val = a.val / b.val := by
  unfold ExactNum.div
  rw [ExactNum.mul_val a b.inv ha (ExactNum.inv_den_pos b hb hn), ExactNum.inv_val]
  rw [div_eq_mul_inv]

theorem ExactNum.div_wf (a b : ExactNum) (ha : 0 < a.den) (hb : 0 < b.den)
    (hn : b.num ≠ 0) : (a.div b).Wf :=
  ExactNum.mul_wf a b.inv ha (ExactNum.inv_den_pos b hb hn)

theorem ExactNum.abs_val (a : ExactNum) : a.abs.val = |a.val| := by
  simp only [ExactNum.abs, ExactNum.val, abs_div]
  congr 1
  · rw [Int.cast_abs]
  · rw [Nat.abs_cast]

theorem ExactNum.abs_wf (a : ExactNum) (h : a.Wf) : a.abs.Wf := by
  obtain ⟨h1, h2⟩ := h
  exact ⟨h1, by simpa [ExactNum.abs, Int.natAbs_abs] using h2⟩

theorem ExactNum.isZero_iff (q : ExactNum) (h : 0 < q.den) :
    q.isZero = true ↔ q.val = 0 := by
  have hd : ((q.den : ℚ)) ≠ 0 := Nat.cast_ne_zero.mpr h.ne'
  simp [ExactNum.isZero, ExactNum.val, div_eq_zero_iff, hd]

theorem ExactNum.isPos_iff (q : ExactNum) (h : 0 < q.den) :
    q.isPos = true ↔ 0 < q.val := by
  have hd : (0 : ℚ) < ((q.den : ℚ)) := by exact_mod_cast h
  simp only [ExactNum.isPos, decide_eq_true_eq, ExactNum.val]
  rw [lt_div_iff₀ hd, zero_mul]
  exact_mod_cast Iff.rfl

theorem ExactNum.ble_iff (a b : ExactNum) (ha : 0 < a.den) (hb : 0 < b.den) :
    a.ble b = true ↔ a.val ≤ b.val := by
  have ha' : (0 : ℚ) < ((a.den : ℚ)) := by exact_mod_cast ha
  have hb' : (0 : ℚ) < ((b.den : ℚ)) := by exact_mod_cast hb
  simp only [ExactNum.ble, decide_eq_true_eq, ExactNum.val]
  rw [div_le_div_iff ha' hb']
  exact_mod_cast Iff.rfl

theorem ExactNum.blt_iff (a b : ExactNum) (ha : 0 < a.den) (hb : 0 < b.den) :
    a.blt b = true ↔ a.val < b.val := by
  have ha' : (0 : ℚ) < ((a.den : ℚ)) := by exact_mod_cast ha
  have hb' : (0 : ℚ) < ((b.den : ℚ)) := by exact_mod_cast hb
  simp only [ExactNum.blt, decide_eq_true_eq, ExactNum.val]
  rw [div_lt_div_iff ha' hb']
  exact_mod_cast Iff.rfl

/-! ### Association lists, lot keys and the inventory invariants -/

theorem alookup_mem {β : Type} (l : List (String × β)) (k : String) (v : β)
    (h : alookup l k = some v) : (k, v) ∈ l := by
  induction l with
  | nil => simp [alookup] at h
  | cons e es ih =>
    obtain ⟨a, b⟩ := e
    by_cases hk : a = k
    · simp only [alookup, hk, if_pos] at h
      obtain rfl : b = v := by injection h
      subst hk
      exact List.mem_cons_self _ _
    · simp only [alookup, if_neg hk] at h
      exact List.mem_cons_of_mem _ (ih h)

theorem alookup_eq_none {β : Type} (l : List (String × β)) (k : String)
    (h : k ∉ l.map Prod.fst) : alookup l k = none := by
  induction l with
  | nil => rfl
  | cons e es ih =>
    simp only [List.map_cons, List.mem_cons] at h
    push_neg at h
    have hne : ¬ e.1 = k := fun he => h.1 he.symm
    simp only [alookup, if_neg hne]
    exact ih h.2

theorem adel_sublist {β : Type} (l : List (String × β)) (k : String) :
    (adel l k).Sublist l := by
  induction l with
  | nil => simp [adel]
  | cons e es ih =>
    by_cases hk : e.1 = k
    · simp only [adel, if_pos hk]
      exact (List.sublist_cons_self e es)
    · simp only [adel, if_neg hk]
      exact ih.cons₂ e

theorem alookup_adel_self {β : Type} (l : List (String × β)) (k : String)
    (h : (l.map Prod.fst).Nodup) : alookup (adel l k) k = none := by
  induction l with
  | nil => rfl
  | cons e es ih =>
    simp only [List.map_cons, List.nodup_cons] at h
    by_cases hk : e.1 = k
    · simp only [adel, if_pos hk]
      exact alookup_eq_none es k (hk ▸ h.1)
    · simp only [adel, if_neg hk, alookup, if_neg hk]
      exact ih h.2

theorem mem_aset {β : Type} (l : List (String × β)) (k : String) (v : β) :
    ∀ e ∈ aset l k v, e = (k, v) ∨ e ∈ l := by
  induction l with
  | nil => intro e he; simp [aset] at he; exact Or.inl he
  | cons q qs ih =>
    intro e he
    by_cases hk : q.1 = k
    · simp only [aset, if_pos hk, List.mem_cons] at he
      rcases he with h | h
      · exact Or.inl h
      · exact Or.inr (List.mem_cons_of_mem _ h)
    · simp only [aset, if_neg hk, List.mem_cons] at he
      rcases he with h | h
      · exact Or.inr (h ▸ List.mem_cons_self _ _)
      · rcases ih e h with h' | h'
        · exact Or.inl h'
        · exact Or.inr (List.mem_cons_of_mem _ h')

theorem keys_aset {β : Type} (l : List (String × β)) (k : String) (v : β) :
    ∀ x ∈ (aset l k v).map Prod.fst, x ∈ l.map Prod.fst ∨ x = k := by
  induction l with
  | nil => intro x hx; simp [aset] at hx; exact Or.inr hx
  | cons q qs ih =>
    intro x hx
    by_cases hk : q.1 = k
    · simp only [aset, if_pos hk, List.map_cons, List.mem_cons] at hx
      simp only [List.map_cons, List.mem_cons]
      rcases hx with h | h
      · exact Or.inr h
      · exact Or.inl (Or.inr h)
    · simp only [aset, if_neg hk, List.map_cons, List.mem_cons] at hx
      simp only [List.map_cons, List.mem_cons]
      rcases hx with h | h
      · exact Or.inl (Or.inl h)
      · rcases ih x h with h' | h'
        · exact Or.inl (Or.inr h')
        · exact Or.inr h'

theorem nodup_keys_aset {β : Type} (l : List (String × β)) (k : String) (v : β)
    (h : (l.map Prod.fst).Nodup) : ((aset l k v).map Prod.fst).Nodup := by
  induction l with
  | nil => simp [aset]
  | cons q qs ih =>
    simp only [List.map_cons, List.nodup_cons] at h
    by_cases hk : q.1 = k
    · simp only [aset, if_pos hk, List.map_cons, List.nodup_cons]
      exact ⟨hk ▸ h.1, h.2⟩
    · simp only [aset, if_neg hk, List.map_cons, List.nodup_cons]
      refine ⟨fun hmem => ?_, ih h.2⟩
      rcases keys_aset qs k v q.1 hmem with h' | h'
      · exact h.1 h'
      · exact hk h'

theorem nodup_keys_adel {β : Type} (l : List (String × β)) (k : String)
    (h : (l.map Prod.fst).Nodup) : ((adel l k).map Prod.fst).Nodup :=
  ((adel_sublist l k).map Prod.fst).nodup h

theorem alookup_aset_self {β : Type} (l : List (String × β)) (k : String) (v : β) :
    alookup (aset l k v) k = some v := by
  induction l with
  | nil => simp [aset, alookup]
  | cons q qs ih =>
    by_cases hk : q.1 = k
    · simp [aset, if_pos hk, alookup]
    · simp only [aset, if_neg hk, alookup, if_neg hk]
      exact ih

/-! Lot-key equivalence -/

theorem recSetEq_iff (xs ys : List (ExactNum × String)) :
    recSetEq xs ys = true ↔ ((∀ x ∈ xs, x ∈ ys) ∧ ∀ y ∈ ys, y ∈ xs) := by
  simp [recSetEq, List.all_eq_true, List.elem_iff]

theorem cke_refl (c : Option Cost) : costKeyEq c c = true := by
  cases c with
  | none => rfl
  | some x =>
    simp only [costKeyEq, Bool.and_eq_true, beq_self_eq_true, true_and]
    exact (recSetEq_iff _ _).mpr ⟨fun x hx => hx, fun y hy => hy⟩

theorem cke_symm {a b : Option Cost} (h : costKeyEq a b = true) : costKeyEq b a = true := by
  cases a with
  | none => cases b with
    | none => rfl
    | some y => simp [costKeyEq] at h
  | some x => cases b with
    | none => simp [costKeyEq] at h
    | some y =>
      simp only [costKeyEq, Bool.and_eq_true, beq_iff_eq] at h ⊢
      obtain ⟨hd, hr⟩ := h
      obtain ⟨h1, h2⟩ := (recSetEq_iff _ _).mp hr
      exact ⟨hd.symm, (recSetEq_iff _ _).mpr ⟨h2, h1⟩⟩

theorem cke_trans {a b c : Option Cost} (h1 : costKeyEq a b = true)
    (h2 : costKeyEq b c = true) : costKeyEq a c = true := by
  cases a with
  | none =>
    cases b with
    | none => exact h2
    | some y => simp [costKeyEq] at h1
  | some x =>
    cases b with
    | none => simp [costKeyEq] at h1
    | some y =>
      cases c with
      | none => simp [costKeyEq] at h2
      | some z =>
        simp only [costKeyEq, Bool.and_eq_true, beq_iff_eq] at h1 h2 ⊢
        obtain ⟨hd1, hr1⟩ := h1
        obtain ⟨hd2, hr2⟩ := h2
        obtain ⟨a1, a2⟩ := (recSetEq_iff _ _).mp hr1
        obtain ⟨b1, b2⟩ := (recSetEq_iff _ _).mp hr2
        exact ⟨hd1.trans hd2,
          (recSetEq_iff _ _).mpr ⟨fun u hu => b1 u (a1 u hu), fun u hu => a2 u (b2 u hu)⟩⟩

/-! CurrencyInventory.addPosition lemmas -/

theorem ciAdd_mem (l : List Position) (p : Position) :
    ∀ r ∈ ciAddPosition l p, r.cost = p.cost ∨ r ∈ l := by
  induction l with
  | nil => intro r hr; simp [ciAddPosition] at hr; simp [hr]
  | cons q qs ih =>
    intro r hr
    by_cases hk : costKeyEq q.cost p.cost = true
    · simp only [ciAddPosition, if_pos hk] at hr
      by_cases hz : ((q.amount.add p.amount).amount.isZero : Bool) = true
      · simp only [if_pos hz] at hr
        exact Or.inr (List.mem_cons_of_mem _ hr)
      · simp only [if_neg hz, List.mem_cons] at hr
        rcases hr with h | h
        · exact Or.inl (by simp [h])
        · exact Or.inr (List.mem_cons_of_mem _ h)
    · simp only [ciAddPosition, if_neg hk, List.mem_cons] at hr
      rcases hr with h | h
      · exact Or.inr (h ▸ List.mem_cons_self _ _)
      · rcases ih r h with h' | h'
        · exact Or.inl h'
        · exact Or.inr (List.mem_cons_of_mem _ h')

theorem ciAdd_noZero (l : List Position) (p : Position)
    (hl : ∀ q ∈ l, q.amount.isZero = false) (hp : p.amount.isZero = false) :
    ∀ r ∈ ciAddPosition l p, r.amount.isZero = false := by
  induction l with
  | nil => intro r hr; simp [ciAddPosition] at hr; simp [hr, hp]
  | cons q qs ih =>
    intro r hr
    have hq := hl q (List.mem_cons_self _ _)
    have hqs : ∀ q ∈ qs, q.amount.isZero = false :=
      fun x hx => hl x (List.mem_cons_of_mem _ hx)
    by_cases hk : costKeyEq q.cost p.cost = true
    · simp only [ciAddPosition, if_pos hk] at hr
      by_cases hz : ((q.amount.add p.amount).amount.isZero : Bool) = true
      · simp only [if_pos hz] at hr
        exact hqs r hr
      · simp only [if_neg hz, List.mem_cons] at hr
        rcases hr with h | h
        · subst h
          simp only [Amount.isZero]
          exact Bool.not_eq_true _ ▸ hz
        · exact hqs r h
    · simp only [ciAddPosition, if_neg hk, List.mem_cons] at hr
      rcases hr with h | h
      · exact h ▸ hq
      · exact ih hqs r h

theorem ciAdd_currency (l : List Position) (p : Position) (c : String)
    (hl : ∀ q ∈ l, q.amount.currency = c) (hp : p.amount.currency = c) :
    ∀ r ∈ ciAddPosition l p, r.amount.currency = c := by
  induction l with
  | nil => intro r hr; simp [ciAddPosition] at hr; simp [hr, hp]
  | cons q qs ih =>
    intro r hr
    have hq := hl q (List.mem_cons_self _ _)
    have hqs : ∀ q ∈ qs, q.amount.currency = c :=
      fun x hx => hl x (List.mem_cons_of_mem _ hx)
    by_cases hk : costKeyEq q.cost p.cost = true
    · simp only [ciAddPosition, if_pos hk] at hr
      by_cases hz : ((q.amount.add p.amount).amount.isZero : Bool) = true
      · simp only [if_pos hz] at hr
        exact hqs r hr
      · simp only [if_neg hz, List.mem_cons] at hr
        rcases hr with h | h
        · subst h; exact hq
        · exact hqs r h
    · simp only [ciAddPosition, if_neg hk, List.mem_cons] at hr
      rcases hr with h | h
      · exact h ▸ hq
      · exact ih hqs r h

theorem ciAdd_wfnum (l : List Position) (p : Position)
    (hl : ∀ q ∈ l, (0:Nat) < q.amount.amount.den) (hp : p.amount.amount.Wf) :
    ∀ r ∈ ciAddPosition l p, r.amount.amount.Wf ∨ r ∈ l := by
  induction l with
  | nil => intro r hr; simp [ciAddPosition] at hr; simp [hr, hp]
  | cons q qs ih =>
    intro r hr
    have hq := hl q (List.mem_cons_self _ _)
    have hqs : ∀ x ∈ qs, (0:Nat) < x.amount.amount.den :=
      fun x hx => hl x (List.mem_cons_of_mem _ hx)
    by_cases hk : costKeyEq q.cost p.cost = true
    · simp only [ciAddPosition, if_pos hk] at hr
      by_cases hz : ((q.amount.add p.amount).amount.isZero : Bool) = true
      · simp only [if_pos hz] at hr
        exact Or.inr (List.mem_cons_of_mem _ hr)
      · simp only [if_neg hz, List.mem_cons] at hr
        rcases hr with h | h
        · subst h
          exact Or.inl (ExactNum.add_wf _ _ hq hp.1)
        · exact Or.inr (List.mem_cons_of_mem _ h)
    · simp only [ciAddPosition, if_neg hk, List.mem_cons] at hr
      rcases hr with h | h
      · exact Or.inr (h ▸ List.mem_cons_self _ _)
      · rcases ih hqs r h with h' | h'
        · exact Or.inl h'
        · exact Or.inr (List.mem_cons_of_mem _ h')

theorem ciAdd_pairwise (l : List Position) (p : Position)
    (hl : l.Pairwise (fun a b => costKeyEq a.cost b.cost = false)) :
    (ciAddPosition l p).Pairwise (fun a b => costKeyEq a.cost b.cost = false) := by
  induction l with
  | nil => simp [ciAddPosition]
  | cons q qs ih =>
    obtain ⟨hq, hqs⟩ := List.pairwise_cons.mp hl
    by_cases hk : costKeyEq q.cost p.cost = true
    · simp only [ciAddPosition, if_pos hk]
      by_cases hz : ((q.amount.add p.amount).amount.isZero : Bool) = true
      · simp only [if_pos hz]
        exact hqs
      · simp only [if_neg hz]
        refine List.pairwise_cons.mpr ⟨fun r hr => ?_, hqs⟩
        by_contra hcontra
        have htrue : costKeyEq p.cost r.cost = true := by
          cases h' : costKeyEq p.cost r.cost with
          | true => rfl
          | false => exact absurd h' hcontra
        have : costKeyEq q.cost r.cost = true := cke_trans hk htrue
        rw [hq r hr] at this
        exact Bool.false_ne_true this
    · simp only [ciAddPosition, if_neg hk]
      refine List.pairwise_cons.mpr ⟨fun r hr => ?_, ih hqs⟩
      rcases ciAdd_mem qs p r hr with h | h
      · rw [h]
        exact Bool.not_eq_true _ ▸ hk
      · exact hq r h

theorem addPositions_nil (inv : Inventory) : inv.addPositions [] = inv := rfl

theorem addPositions_cons (inv : Inventory) (p : Position) (ps : List Position) :
    inv.addPositions (p :: ps) = (inv.addPosition p).addPositions ps := rfl

theorem addPosition_zero (inv : Inventory) (p : Position)
    (h : p.amount.isZero = true) : inv.addPosition p = inv := by
  simp [Inventory.addPosition, Inventory.addPositions, h]

theorem addPosition_wf (inv : Inventory) (p : Position) (hw : inv.Wf)
    (hp : p.amount.amount.Wf) : (inv.addPosition p).Wf := by
  obtain ⟨hnd, hent⟩ := hw
  by_cases hz : (p.amount.isZero : Bool) = true
  · rw [addPosition_zero inv p hz]; exact ⟨hnd, hent⟩
  · have hz' : p.amount.isZero = false := by
      cases h : p.amount.isZero with
      | true => exact absurd h hz
      | false => rfl
    simp only [Inventory.addPosition, Inventory.addPositions, List.foldl_cons,
      List.foldl_nil, hz', Bool.false_eq_true, if_false]
    set c := p.amount.currency with hc
    set cur := (alookup inv.entries c).getD [] with hcur
    have hcur_props : (∀ q ∈ cur, PosWf c q) ∧
        cur.Pairwise (fun a b => costKeyEq a.cost b.cost = false) := by
      cases hl : alookup inv.entries c with
      | none => simp [hcur, hl]
      | some l =>
        have hm := alookup_mem _ _ _ hl
        have := hent (c, l) hm
        simp only [hcur, hl, Option.getD_some]
        exact ⟨this.2.1, this.2.2⟩
    set nw := ciAddPosition cur p with hnw
    by_cases hemp : nw.isEmpty = true
    · rw [if_pos hemp]
      constructor
      · exact nodup_keys_adel _ _ hnd
      · intro e he
        exact hent e ((adel_sublist _ _).subset he)
    · rw [if_neg hemp]
      constructor
      · exact nodup_keys_aset _ _ _ hnd
      · intro e he
        rcases mem_aset _ _ _ e he with h | h
        · subst h
          refine ⟨fun hn => hemp (by rw [show nw = [] from hn]; rfl), ?_, ?_⟩
          · intro q hq
            refine ⟨ciAdd_currency cur p c (fun x hx => (hcur_props.1 x hx).1) rfl q hq,
              ciAdd_noZero cur p (fun x hx => (hcur_props.1 x hx).2.1) hz' q hq, ?_⟩
            rcases ciAdd_wfnum cur p (fun x hx => (hcur_props.1 x hx).2.2.1) hp q hq
              with h' | h'
            · exact h'
            · exact (hcur_props.1 q h').2.2
          · exact ciAdd_pairwise cur p hcur_props.2
        · exact hent e h

theorem addPosition_noZeros (inv : Inventory) (p : Position) (h : inv.NoZeros) :
    (inv.addPosition p).NoZeros := by
  by_cases hz : (p.amount.isZero : Bool) = true
  · rw [addPosition_zero inv p hz]; exact h
  · have hz' : p.amount.isZero = false := by
      cases h' : p.amount.isZero with
      | true => exact absurd h' hz
      | false => rfl
    simp only [Inventory.addPosition, Inventory.addPositions, List.foldl_cons,
      List.foldl_nil, hz', Bool.false_eq_true, if_false]
    set c := p.amount.currency with hc
    set cur := (alookup inv.entries c).getD [] with hcur
    have hcur_nz : ∀ q ∈ cur, q.amount.isZero = false := by
      cases hl : alookup inv.entries c with
      | none => simp [hcur, hl]
      | some l =>
        have hm := alookup_mem _ _ _ hl
        simp only [hcur, hl, Option.getD_some]
        exact h (c, l) hm
    set nw := ciAddPosition cur p with hnw
    by_cases hemp : nw.isEmpty = true
    · rw [if_pos hemp]
      intro e he
      exact h e ((adel_sublist _ _).subset he)
    · rw [if_neg hemp]
      intro e he
      rcases mem_aset _ _ _ e he with h' | h'
      · subst h'
        exact ciAdd_noZero cur p hcur_nz hz'
      · exact h e h'

theorem addPositions_noZeros (inv : Inventory) (ps : List Position)
    (h : inv.NoZeros) : (inv.addPositions ps).NoZeros := by
  induction ps generalizing inv with
  | nil => rw [addPositions_nil]; exact h
  | cons p ps ih =>
    rw [addPositions_cons]
    exact ih _ (addPosition_noZeros inv p h)

theorem addPositions_wf (inv : Inventory) (ps : List Position) (hw : inv.Wf)
    (hp : ∀ p ∈ ps, p.amount.amount.Wf) : (inv.addPositions ps).Wf := by
  induction ps generalizing inv with
  | nil => rw [addPositions_nil]; exact hw
  | cons p ps ih =>
    rw [addPositions_cons]
    exact ih _ (addPosition_wf inv p hw (hp p (List.mem_cons_self _ _)))
      (fun q hq => hp q (List.mem_cons_of_mem _ hq))

theorem addAmounts_noZeros (inv : Inventory) (amts : List Amount)
    (h : inv.NoZeros) : (inv.addAmounts amts).NoZeros :=
  addPositions_noZeros inv _ h

theorem addAmount_noZeros (inv : Inventory) (a : Amount)
    (h : inv.NoZeros) : (inv.addAmount a).NoZeros :=
  addAmounts_noZeros inv [a] h

theorem ciAdd_find (l : List Position) (p : Position)
    (hl : l.Pairwise (fun a b => costKeyEq a.cost b.cost = false)) :
    (ciAddPosition l p).find? (fun q => costKeyEq q.cost p.cost) =
      match l.find? (fun q => costKeyEq q.cost p.cost) with
      | none => some p
      | some q =>
        if (q.amount.add p.amount).amount.isZero then none
        else some ⟨q.amount.add p.amount, p.cost⟩ := by
  induction l with
  | nil =>
    simp [ciAddPosition, List.find?, cke_refl]
  | cons q qs ih =>
    obtain ⟨hq, hqs⟩ := List.pairwise_cons.mp hl
    by_cases hk : costKeyEq q.cost p.cost = true
    · simp only [ciAddPosition, if_pos hk]
      by_cases hz : ((q.amount.add p.amount).amount.isZero : Bool) = true
      · rw [if_pos hz]
        have hnone : qs.find? (fun r => costKeyEq r.cost p.cost) = none := by
          rw [List.find?_eq_none]
          intro r hr hcontra
          have h1 : costKeyEq p.cost r.cost = true :=
            cke_symm (by simpa using hcontra)
          have : costKeyEq q.cost r.cost = true := cke_trans hk h1
          rw [hq r hr] at this
          exact Bool.false_ne_true this
        rw [hnone]
        simp [List.find?, hk, hz]
      · rw [if_neg hz]
        have hz'' : ((q.amount.add p.amount).amount.isZero : Bool) = false := by
          cases h' : ((q.amount.add p.amount).amount.isZero : Bool) with
          | true => exact absurd h' hz
          | false => rfl
        simp [List.find?, hk, cke_refl, hz'']
    · have hk' : costKeyEq q.cost p.cost = false := by
        cases h' : costKeyEq q.cost p.cost with
        | true => exact absurd h' hk
        | false => rfl
      simp only [ciAddPosition, if_neg hk]
      simp [List.find?, hk', ih hqs]

theorem findPosition_addPosition (inv : Inventory) (p : Position) (hw : inv.Wf)
    (hz : p.amount.isZero = false) :
    findPosition (inv.addPosition p) p.amount.currency p.cost =
      match findPosition inv p.amount.currency p.cost with
      | none => some p
      | some q =>
        if (q.amount.add p.amount).amount.isZero then none
        else some ⟨q.amount.add p.amount, p.cost⟩ := by
  obtain ⟨hnd, hent⟩ := hw
  set c := p.amount.currency with hc
  set cur := (alookup inv.entries c).getD [] with hcur
  set nw := ciAddPosition cur p with hnw
  have hstep : (inv.addPosition p).entries =
      if nw.isEmpty then adel inv.entries c else aset inv.entries c nw := by
    simp only [Inventory.addPosition, Inventory.addPositions, List.foldl_cons,
      List.foldl_nil, hz, Bool.false_eq_true, if_false]
  have hpair : cur.Pairwise (fun a b => costKeyEq a.cost b.cost = false) := by
    cases hl : alookup inv.entries c with
    | none => simp [hcur, hl]
    | some l =>
      have hm := alookup_mem _ _ _ hl
      simp only [hcur, hl, Option.getD_some]
      exact (hent (c, l) hm).2.2
  have hfind := ciAdd_find cur p hpair
  have hlhs : findPosition (inv.addPosition p) c p.cost =
      ((alookup (if nw.isEmpty then adel inv.entries c else aset inv.entries c nw) c).getD
        []).find? (fun q => costKeyEq q.cost p.cost) := by
    rw [findPosition, hstep]
  have hrhs : findPosition inv c p.cost = cur.find? (fun q => costKeyEq q.cost p.cost) := by
    rw [findPosition, hcur]
  rw [hlhs, hrhs]
  by_cases hemp : nw.isEmpty = true
  · rw [if_pos hemp]
    have hnil : nw = [] := by
      cases hnw' : nw with
      | nil => rfl
      | cons a l => rw [hnw'] at hemp; simp [List.isEmpty] at hemp
    rw [alookup_adel_self _ _ hnd]
    rw [show ciAddPosition cur p = ([] : List Position) from by rw [← hnw, hnil]] at hfind
    cases hcf : cur.find? (fun q => costKeyEq q.cost p.cost) with
    | none =>
      rw [hcf] at hfind
      simp at hfind
    | some q =>
      rw [hcf] at hfind
      simp only [List.find?_nil] at hfind
      by_cases hsz : ((q.amount.add p.amount).amount.isZero : Bool) = true
      · simp [hsz]
      · rw [if_neg hsz] at hfind
        exact absurd hfind (by simp)
  · rw [if_neg hemp]
    rw [alookup_aset_self]
    simp only [Option.getD_some]
    exact hfind

theorem getPositions_flatten (inv : Inventory) :
    inv.getPositions = (inv.entries.map Prod.snd).flatten := by
  show inv.entries.foldr (fun e acc => e.2 ++ acc) [] = _
  induction inv.entries with
  | nil => rfl
  | cons e es ih => simp [List.foldr_cons, ih]

/-! ### Claim C3: augmentation cost resolution -/

/-- C3 counterexample: the claim says a total cost-spec is divided by the
absolute value of the posting amount; booking `-2 VT {{300 CHF}}` resolves
the per-unit cost to `-150 CHF = 300 / (-2)`, not `150 CHF = 300 / |-2|`. -/
theorem augmentation_abs_value_cex :
    headCostAmounts (bookPosting
      ⟨500, ⟨"", none, none⟩, "short", "*", [], [], []⟩
      ⟨"Assets:Broker", "*", some ⟨⟨-2, 1⟩, "VT"⟩,
        some ⟨.total, [⟨⟨300, 1⟩, "CHF"⟩], [], [], [], []⟩, []⟩
      [] Inventory.Empty none)
      = [⟨⟨-150, 1⟩, "CHF"⟩] ∧
    ¬ headCostAmounts (bookPosting
      ⟨500, ⟨"", none, none⟩, "short", "*", [], [], []⟩
      ⟨"Assets:Broker", "*", some ⟨⟨-2, 1⟩, "VT"⟩,
        some ⟨.total, [⟨⟨300, 1⟩, "CHF"⟩], [], [], [], []⟩, []⟩
      [] Inventory.Empty none)
      = [⟨⟨150, 1⟩, "CHF"⟩] := by decide

/-- C3 (amended): for every augmentation posting, the resolved per-unit
cost amounts are the cost-spec amounts kept as-is for a per-unit spec and
divided by the signed posting amount for a total spec; the trading-account
total amounts are multiplied by the signed posting amount for a per-unit
spec and kept as-is for a total spec.  For well-formed non-zero amounts
the division is exact rational division. -/
theorem augmentation_cost_signed_amount
    (tx : TransactionDirective) (posting : Posting) (pa : Amount) (cs : CostSpec)
    (inventories : InventoryMap) (balance : Inventory) (acct : Option AccountDir)
    (bps : List BookedPosting) (invs : InventoryMap) (bal : Inventory)
    (hpa : posting.amount = some pa) (hcs : posting.costSpec = some cs)
    (hn : cs.amounts.length > 0)
    (hok : bookPosting tx posting inventories balance acct = .ok (bps, invs, bal)) :
    ∃ cost : Cost,
      bps.head? = some ⟨posting.account, posting.flag, pa, some cost, posting.meta⟩ ∧
      cost.amounts = cs.amounts.map (fun am =>
        if cs.kind = .perUnit then am else am.div pa.amount) ∧
      cost.tags = cs.tags ∧
      (bps.drop 2).map (fun bp => bp.amount) = cs.amounts.map (fun am =>
        if cs.kind = .total then am else am.mul pa.amount) ∧
      (∀ am : Amount, cs.kind = .total → am.amount.Wf → pa.amount.Wf →
        pa.amount.num ≠ 0 →
        (am.div pa.amount).amount.val = am.amount.val / pa.amount.val) := by
  simp only [bookPosting, hpa, hcs] at hok
  rw [if_pos hn] at hok
  cases hv : validateCostSpecForAugmentation cs with
  | error e => rw [hv] at hok; simp at hok
  | ok u =>
    rw [hv] at hok
    simp only [doBook, Except.ok.injEq, Prod.mk.injEq] at hok
    obtain ⟨hbps, _, _⟩ := hok
    rw [← hbps]
    refine ⟨_, rfl, ?_, rfl, ?_, ?_⟩
    · simp only [getPerUnitAmount]
    · show (cs.amounts.map (fun am =>
        ({ account := getTradingAccount tx posting
            (match acct with | some (AccountDir.opened d) => some d | _ => none),
           flag := posting.flag, amount := getTotalAmount am pa cs, cost := none,
           meta := [] } : BookedPosting))).map (fun bp => bp.amount) = _
      simp only [List.map_map, getTotalAmount]
      rfl
    · intro am hk hwa hwp hnum
      simp only [Amount.div]
      exact ExactNum.div_val am.amount pa.amount hwa.1 hwp.1 hnum

/-- C3 witness: the amended theorem applied to the augmentation
`-2 VT {{300 CHF}}` with its computed booking result. -/
theorem augmentation_cost_signed_amount_witness :
    ∃ cost : Cost,
      (([⟨"Assets:Broker", "*", ⟨⟨-2, 1⟩, "VT"⟩,
          some ⟨[⟨⟨-150, 1⟩, "CHF"⟩], 500, ⟨"", none, none⟩, []⟩, []⟩,
        ⟨"Trading:Default", "*", ⟨⟨2, 1⟩, "VT"⟩, none, []⟩,
        ⟨"Trading:Default", "*", ⟨⟨300, 1⟩, "CHF"⟩, none, []⟩] : List BookedPosting).head?
        = some ⟨"Assets:Broker", "*", ⟨⟨-2, 1⟩, "VT"⟩, some cost, []⟩) ∧
      cost.amounts = ([⟨⟨300, 1⟩, "CHF"⟩] : List Amount).map (fun am =>
        if CostKind.total = .perUnit then am else am.div ⟨-2, 1⟩) ∧
      cost.tags = [] ∧
      (([⟨"Assets:Broker", "*", ⟨⟨-2, 1⟩, "VT"⟩,
          some ⟨[⟨⟨-150, 1⟩, "CHF"⟩], 500, ⟨"", none, none⟩, []⟩, []⟩,
        ⟨"Trading:Default", "*", ⟨⟨2, 1⟩, "VT"⟩, none, []⟩,
        ⟨"Trading:Default", "*", ⟨⟨300, 1⟩, "CHF"⟩, none, []⟩] : List BookedPosting).drop 2).map
          (fun bp => bp.amount) = ([⟨⟨300, 1⟩, "CHF"⟩] : List Amount).map (fun am =>
        if CostKind.total = .total then am else am.mul ⟨-2, 1⟩) ∧
      (∀ am : Amount, CostKind.total = .total → am.amount.Wf →
        (ExactNum.mk (-2) 1).Wf → (ExactNum.mk (-2) 1).num ≠ 0 →
        (am.div ⟨-2, 1⟩).amount.val = am.amount.val / (ExactNum.mk (-2) 1).val) :=
  augmentation_cost_signed_amount
    ⟨500, ⟨"", none, none⟩, "short", "*", [], [], []⟩
    ⟨"Assets:Broker", "*", some ⟨⟨-2, 1⟩, "VT"⟩,
      some ⟨.total, [⟨⟨300, 1⟩, "CHF"⟩], [], [], [], []⟩, []⟩
    ⟨⟨-2, 1⟩, "VT"⟩ ⟨.total, [⟨⟨300, 1⟩, "CHF"⟩], [], [], [], []⟩
    [] Inventory.Empty none
    [⟨"Assets:Broker", "*", ⟨⟨-2, 1⟩, "VT"⟩,
        some ⟨[⟨⟨-150, 1⟩, "CHF"⟩], 500, ⟨"", none, none⟩, []⟩, []⟩,
      ⟨"Trading:Default", "*", ⟨⟨2, 1⟩, "VT"⟩, none, []⟩,
      ⟨"Trading:Default", "*", ⟨⟨300, 1⟩, "CHF"⟩, none, []⟩]
    [("Assets:Broker", ⟨[("VT", [⟨⟨⟨-2, 1⟩, "VT"⟩,
        some ⟨[⟨⟨-150, 1⟩, "CHF"⟩], 500, ⟨"", none, none⟩, []⟩⟩])]⟩),
     ("Trading:Default", ⟨[("VT", [⟨⟨⟨2, 1⟩, "VT"⟩, none⟩]),
        ("CHF", [⟨⟨⟨300, 1⟩, "CHF"⟩, none⟩])]⟩)]
    ⟨[("CHF", [⟨⟨⟨300, 1⟩, "CHF"⟩, none⟩])]⟩
    rfl rfl (by decide) (by decide)

/-! ### Claim C7: tie-breaking on equal lot dates -/

/-- C7 counterexample: with three equal-dated lots inserted in the order
1 CHF, 2 CHF, 3 CHF, neither FIFO nor LIFO consumes them in insertion
order when reducing -3 USD. -/
theorem tie_break_insertion_order_cex :
    emittedCosts (lifoBook "Assets:Test" "*" [] ⟨⟨-3, 1⟩, "USD"⟩ tieInv) ≠
      [some ⟨[⟨⟨1, 1⟩, "CHF"⟩], 100, ⟨"", none, none⟩, []⟩,
       some ⟨[⟨⟨2, 1⟩, "CHF"⟩], 100, ⟨"", none, none⟩, []⟩,
       some ⟨[⟨⟨3, 1⟩, "CHF"⟩], 100, ⟨"", none, none⟩, []⟩] ∧
    emittedCosts (fifoBook "Assets:Test" "*" [] ⟨⟨-3, 1⟩, "USD"⟩ tieInv) ≠
      [some ⟨[⟨⟨1, 1⟩, "CHF"⟩], 100, ⟨"", none, none⟩, []⟩,
       some ⟨[⟨⟨2, 1⟩, "CHF"⟩], 100, ⟨"", none, none⟩, []⟩,
       some ⟨[⟨⟨3, 1⟩, "CHF"⟩], 100, ⟨"", none, none⟩, []⟩] := by decide

/-- C7 (amended): ties on the lot date are broken by the binary heap's
deterministic extraction order, which differs from insertion order: the
three equal-dated lots inserted as 1, 2, 3 CHF are consumed in the order
2, 1, 3 CHF by both FIFO and LIFO. -/
theorem tie_break_heap_order :
    emittedCosts (lifoBook "Assets:Test" "*" [] ⟨⟨-3, 1⟩, "USD"⟩ tieInv) =
      [some ⟨[⟨⟨2, 1⟩, "CHF"⟩], 100, ⟨"", none, none⟩, []⟩,
       some ⟨[⟨⟨1, 1⟩, "CHF"⟩], 100, ⟨"", none, none⟩, []⟩,
       some ⟨[⟨⟨3, 1⟩, "CHF"⟩], 100, ⟨"", none, none⟩, []⟩] ∧
    emittedCosts (fifoBook "Assets:Test" "*" [] ⟨⟨-3, 1⟩, "USD"⟩ tieInv) =
      [some ⟨[⟨⟨2, 1⟩, "CHF"⟩], 100, ⟨"", none, none⟩, []⟩,
       some ⟨[⟨⟨1, 1⟩, "CHF"⟩], 100, ⟨"", none, none⟩, []⟩,
       some ⟨[⟨⟨3, 1⟩, "CHF"⟩], 100, ⟨"", none, none⟩, []⟩] := by decide

/-! ### Claim C8: ordering of `getPositions` -/

/-- C8 counterexample: `getPositions` is not sorted by currency; its order
depends on the insertion order, so the same position set added in two
orders yields two different lists (the claimed sorted order would force
CHF before USD in both). -/
theorem positions_sorted_cex :
    ((Inventory.Empty.addAmount ⟨⟨1, 1⟩, "USD"⟩).addAmount ⟨⟨1, 1⟩, "CHF"⟩).getPositions.map
      (fun p => p.amount.currency) = ["USD", "CHF"] ∧
    ((Inventory.Empty.addAmount ⟨⟨1, 1⟩, "CHF"⟩).addAmount ⟨⟨1, 1⟩, "USD"⟩).getPositions.map
      (fun p => p.amount.currency) = ["CHF", "USD"] ∧
    ((Inventory.Empty.addAmount ⟨⟨1, 1⟩, "USD"⟩).addAmount ⟨⟨1, 1⟩, "CHF"⟩).getPositions ≠
    ((Inventory.Empty.addAmount ⟨⟨1, 1⟩, "CHF"⟩).addAmount ⟨⟨1, 1⟩, "USD"⟩).getPositions := by
  decide

/-! ### Claim C6: currency directives -/

/-- C6 counterexample: the driver does not register currencies and never
raises a duplicate-currency error; a ledger with a single fresh currency
directive fails with the not-implemented error of the dispatch's default
arm instead of registering it. -/
theorem driver_currency_cex :
    (bookLedger ⟨[.currency ⟨0, "CHF", [], []⟩], []⟩).isOk = false ∧
    bookLedger ⟨[.currency ⟨0, "CHF", [], []⟩], []⟩ = .error (.notImplemented "currency") := by
  decide

/-- C6 (amended): the duplicate check and the registration happen in the
loader (`doLoad`): a currency or commodity declaration fails with the
already-defined error when the currency has a directive, and registers the
currency otherwise; `commodity` is accepted identically. -/
theorem loader_currency_registration (cm : List (String × CurrencyDirective))
    (om : OptionMap) (d : CurrencyLoadDirective) :
    (alookup cm d.currency = none →
      loadCurrencyStep cm om d =
        .ok (aset cm d.currency ⟨d.date, d.currency, d.meta, om⟩)) ∧
    (∀ cd, alookup cm d.currency = some cd →
      loadCurrencyStep cm om d = .error (.currencyAlreadyDefined d.currency)) := by
  constructor
  · intro h
    simp [loadCurrencyStep, h]
  · intro cd h
    simp [loadCurrencyStep, h]

/-- C6 witness: a fresh CHF declaration via the `commodity` synonym
registers the currency. -/
theorem loader_currency_registration_witness :
    loadCurrencyStep [] [] ⟨.commodity, "CHF", 7, []⟩ =
      .ok (aset [] "CHF" ⟨7, "CHF", [], []⟩) :=
  (loader_currency_registration [] [] ⟨.commodity, "CHF", 7, []⟩).1 rfl

/-! ### Claim C9: frame effect of a transaction step -/

/-- C9: processing a transaction directive leaves the account map and the
currency map unchanged: a successful transaction only appends the booked
transaction and adopts its inventories-after snapshot, and an error is
surfaced unchanged. -/
theorem transaction_step_frame (st : DriverState) (tx : TransactionDirective) :
    (∀ t, bookTransaction tx st.inventories st.accountMap = .ok t →
      bookStep st (.transaction tx) =
        .ok { st with
              transactions := st.transactions ++ [t]
              inventories := t.inventoriesAfter }) ∧
    (∀ e, bookTransaction tx st.inventories st.accountMap = .error e →
      bookStep st (.transaction tx) = .error e) ∧
    (∀ st', bookStep st (.transaction tx) = .ok st' →
      st'.accountMap = st.accountMap ∧ st'.currencyMap = st.currencyMap ∧
      ∃ t, bookTransaction tx st.inventories st.accountMap = .ok t ∧
        st'.transactions = st.transactions ++ [t] ∧
        st'.inventories = t.inventoriesAfter) := by
  refine ⟨?_, ?_, ?_⟩
  · intro t h
    simp [bookStep, h]
  · intro e h
    simp [bookStep, h]
  · intro st' h
    simp only [bookStep] at h
    cases hb : bookTransaction tx st.inventories st.accountMap with
    | error e => rw [hb] at h; simp at h
    | ok t =>
      rw [hb] at h
      simp only [Except.ok.injEq] at h
      rw [← h]
      exact ⟨rfl, rfl, t, rfl, rfl, rfl⟩

/-- C9 witness: the frame theorem applied to a concrete balanced
transaction from the empty driver state. -/
theorem transaction_step_frame_witness :
    bookStep ⟨[], [], [], []⟩ (.transaction
      ⟨0, ⟨"", none, none⟩, "t", "*",
        [⟨"Assets:A", "*", some ⟨⟨10, 1⟩, "USD"⟩, none, []⟩,
         ⟨"Assets:B", "*", some ⟨⟨-10, 1⟩, "USD"⟩, none, []⟩], [], []⟩) =
    .ok ⟨[⟨0, "t", "*",
          [⟨"Assets:A", "*", ⟨⟨10, 1⟩, "USD"⟩, none, []⟩,
           ⟨"Assets:B", "*", ⟨⟨-10, 1⟩, "USD"⟩, none, []⟩], [], [],
          [("Assets:A", ⟨[("USD", [⟨⟨⟨10, 1⟩, "USD"⟩, none⟩])]⟩),
           ("Assets:B", ⟨[("USD", [⟨⟨⟨-10, 1⟩, "USD"⟩, none⟩])]⟩)]⟩],
         [], [],
         [("Assets:A", ⟨[("USD", [⟨⟨⟨10, 1⟩, "USD"⟩, none⟩])]⟩),
          ("Assets:B", ⟨[("USD", [⟨⟨⟨-10, 1⟩, "USD"⟩, none⟩])]⟩)]⟩ :=
  (transaction_step_frame ⟨[], [], [], []⟩
    ⟨0, ⟨"", none, none⟩, "t", "*",
      [⟨"Assets:A", "*", some ⟨⟨10, 1⟩, "USD"⟩, none, []⟩,
       ⟨"Assets:B", "*", some ⟨⟨-10, 1⟩, "USD"⟩, none, []⟩], [], []⟩).1
    ⟨0, "t", "*",
      [⟨"Assets:A", "*", ⟨⟨10, 1⟩, "USD"⟩, none, []⟩,
       ⟨"Assets:B", "*", ⟨⟨-10, 1⟩, "USD"⟩, none, []⟩], [], [],
      [("Assets:A", ⟨[("USD", [⟨⟨⟨10, 1⟩, "USD"⟩, none⟩])]⟩),
       ("Assets:B", ⟨[("USD", [⟨⟨⟨-10, 1⟩, "USD"⟩, none⟩])]⟩)]⟩
    (by decide)

/-! ### Claim C10: elastic posting on an empty running balance -/

/-- C10: if the running balance is empty when an elastic posting (no
amount, no cost spec) is processed, the posting emits zero booked postings
and leaves the inventories and the balance unchanged; in particular a
transaction with a second elastic posting after the first has drained the
balance still books successfully. -/
theorem elastic_empty_balance (tx : TransactionDirective) (posting : Posting)
    (inventories : InventoryMap) (balance : Inventory) (acct : Option AccountDir)
    (hbal : balance.isEmpty = true) (ha : posting.amount = none)
    (hc : posting.costSpec = none) :
    bookPosting tx posting inventories balance acct = .ok ([], inventories, balance) ∧
    (bookTransaction
      ⟨0, ⟨"", none, none⟩, "two elastic", "*",
        [⟨"Assets:A", "*", some ⟨⟨10, 1⟩, "USD"⟩, none, []⟩,
         ⟨"Assets:B", "*", none, none, []⟩,
         ⟨"Assets:C", "*", none, none, []⟩], [], []⟩ [] []).isOk = true := by
  constructor
  · have hent : balance.entries = [] := by
      simpa [Inventory.isEmpty, List.isEmpty_iff] using hbal
    simp [bookPosting, ha, hc, doBook, Inventory.getPositions, hent]
  · decide

/-- C10 witness: an elastic posting on the empty balance is a no-op. -/
theorem elastic_empty_balance_witness :
    bookPosting ⟨0, ⟨"", none, none⟩, "", "*", [], [], []⟩
      ⟨"Assets:C", "*", none, none, []⟩ [] Inventory.Empty none
      = .ok ([], [], Inventory.Empty) ∧
    (bookTransaction
      ⟨0, ⟨"", none, none⟩, "two elastic", "*",
        [⟨"Assets:A", "*", some ⟨⟨10, 1⟩, "USD"⟩, none, []⟩,
         ⟨"Assets:B", "*", none, none, []⟩,
         ⟨"Assets:C", "*", none, none, []⟩], [], []⟩ [] []).isOk = true :=
  elastic_empty_balance ⟨0, ⟨"", none, none⟩, "", "*", [], [], []⟩
    ⟨"Assets:C", "*", none, none, []⟩ [] Inventory.Empty none rfl rfl rfl

/-! ### Claim C4: no zero positions, lot aggregation -/

/-- C4: no inventory produced by `addAmount`, `addAmounts`, `addPosition`
or `addPositions` from a zero-free inventory stores a zero-amount
position; adding a zero-amount position is a no-op; and on a well-formed
inventory, adding a non-zero position either stores it under its fresh
(currency, lot-key), or replaces the position already stored under that
key by the summed amount, removing the entry when the sum is zero. -/
theorem inventory_no_zero_aggregation (inv : Inventory) (p : Position)
    (ps : List Position) (amts : List Amount) (a : Amount)
    (hnz : inv.NoZeros) (hw : inv.Wf) (hz : p.amount.isZero = false) :
    (inv.addPositions ps).NoZeros ∧ (inv.addPosition p).NoZeros ∧
    (inv.addAmounts amts).NoZeros ∧ (inv.addAmount a).NoZeros ∧
    (∀ q : Position, q.amount.isZero = true → inv.addPosition q = inv) ∧
    findPosition (inv.addPosition p) p.amount.currency p.cost =
      (match findPosition inv p.amount.currency p.cost with
       | none => some p
       | some q =>
         if (q.amount.add p.amount).amount.isZero then none
         else some ⟨q.amount.add p.amount, p.cost⟩) :=
  ⟨addPositions_noZeros inv ps hnz,
   addPosition_noZeros inv p hnz,
   addAmounts_noZeros inv amts hnz,
   addAmount_noZeros inv a hnz,
   fun q hq => addPosition_zero inv q hq,
   findPosition_addPosition inv p hw hz⟩

/-- C4 witness: cancelling the 1 USD lot of `invC4` with `-1 USD` removes
the stored entry. -/
theorem inventory_no_zero_aggregation_witness :
    (invC4.NoZeros ∧ invC4.Wf ∧ pC4.amount.isZero = false) ∧
    ((invC4.addPositions [pC4]).NoZeros ∧ (invC4.addPosition pC4).NoZeros ∧
     (invC4.addAmounts []).NoZeros ∧ (invC4.addAmount ⟨⟨3, 1⟩, "EUR"⟩).NoZeros ∧
     (∀ q : Position, q.amount.isZero = true → invC4.addPosition q = invC4) ∧
     findPosition (invC4.addPosition pC4) pC4.amount.currency pC4.cost =
       (match findPosition invC4 pC4.amount.currency pC4.cost with
        | none => some pC4
        | some q =>
          if (q.amount.add pC4.amount).amount.isZero then none
          else some ⟨q.amount.add pC4.amount, pC4.cost⟩)) :=
  ⟨⟨by decide, by decide, by decide⟩,
   inventory_no_zero_aggregation invC4 pC4 [pC4] [] ⟨⟨3, 1⟩, "EUR"⟩
     (by decide) (by decide) (by decide)⟩

/-! ### Claim C8 (amended): getPositions grouping -/

/-- C8 (amended): `getPositions` applies no sorting at all; on a
well-formed inventory it returns the concatenation of the per-currency
position lists in the currency map's stable insertion order, the currency
keys are pairwise distinct, every group is non-empty and every position
sits in the group of its own currency. -/
theorem positions_grouped_by_currency (inv : Inventory) (hw : inv.Wf) :
    inv.getPositions = (inv.entries.map Prod.snd).flatten ∧
    (inv.entries.map Prod.fst).Nodup ∧
    ∀ e ∈ inv.entries, e.2 ≠ [] ∧ ∀ p ∈ e.2, p.amount.currency = e.1 :=
  ⟨getPositions_flatten inv, hw.1,
   fun e he => ⟨(hw.2 e he).1, fun p hp => ((hw.2 e he).2.1 p hp).1⟩⟩

/-- C8 witness: the grouping at the two-currency inventory `invC4`. -/
theorem positions_grouped_by_currency_witness :
    invC4.Wf ∧
    (invC4.getPositions = (invC4.entries.map Prod.snd).flatten ∧
     (invC4.entries.map Prod.fst).Nodup ∧
     ∀ e ∈ invC4.entries, e.2 ≠ [] ∧ ∀ p ∈ e.2, p.amount.currency = e.1) :=
  ⟨by decide, positions_grouped_by_currency invC4 (by decide)⟩

/-! ### Claim C5: balance assertion -/

/-- Summing positions keeps the denominator positive. -/
theorem foldl_add_den_pos (l : List Position) (acc : Amount)
    (hacc : 0 < acc.amount.den) (hl : ∀ p ∈ l, 0 < p.amount.amount.den) :
    0 < (l.foldl (fun a v => a.add v.amount) acc).amount.den := by
  induction l generalizing acc with
  | nil => exact hacc
  | cons p l ih =>
    rw [List.foldl_cons]
    exact ih (acc.add p.amount)
      (ExactNum.add_den_pos _ _ hacc (hl p (List.mem_cons_self _ _)))
      (fun q hq => hl q (List.mem_cons_of_mem _ hq))

/-- The value of the summing fold is the sum of the values. -/
theorem foldl_add_val (l : List Position) (acc : Amount)
    (hacc : 0 < acc.amount.den) (hl : ∀ p ∈ l, 0 < p.amount.amount.den) :
    (l.foldl (fun a v => a.add v.amount) acc).amount.val =
      acc.amount.val + (l.map (fun p => p.amount.amount.val)).sum := by
  induction l generalizing acc with
  | nil => simp
  | cons p l ih =>
    rw [List.foldl_cons, List.map_cons, List.sum_cons,
      ih (acc.add p.amount)
        (ExactNum.add_den_pos _ _ hacc (hl p (List.mem_cons_self _ _)))
        (fun q hq => hl q (List.mem_cons_of_mem _ hq))]
    show (acc.amount.add p.amount.amount).val + _ = _
    rw [ExactNum.add_val _ _ hacc (hl p (List.mem_cons_self _ _))]
    ring

/-- C5 (amended): a balance triple succeeds iff
`|expected - actual| <= |tolerance|` with `actual` the sum of the
account's positions in the expected currency and the tolerance
defaulting to zero (negative tolerances act as their absolute value);
on failure the error carries expected, actual,
`delta = expected - actual` (not `actual - expected`) and
`maxDelta = |tolerance|`. -/
theorem balance_assertion (accountMap : AccountMap) (optionMap : OptionMap)
    (invs : InventoryMap) (b : BalanceSpec) (s : Option AccountDir)
    (hacct : checkValidAccount accountMap optionMap b.account true = .ok s)
    (hden : 0 < b.amount.amount.den)
    (happrox : 0 < (b.approx.getD ⟨0, 1⟩).den)
    (hpos : ∀ p ∈ ((alookup invs b.account).getD Inventory.Empty).getPositionsForCurrency
      b.amount.currency, 0 < p.amount.amount.den) :
    (bookBalanceOne accountMap optionMap invs b = .ok () ↔
      |b.amount.amount.val - (balActual invs b).amount.val| ≤
        |(b.approx.getD ⟨0, 1⟩).val|) ∧
    (balActual invs b).amount.val =
      ((((alookup invs b.account).getD Inventory.Empty).getPositionsForCurrency
          b.amount.currency).map (fun p => p.amount.amount.val)).sum ∧
    (balDelta invs b).amount.val =
      b.amount.amount.val - (balActual invs b).amount.val ∧
    (balMaxDelta b).amount.val = |(b.approx.getD ⟨0, 1⟩).val| ∧
    (bookBalanceOne accountMap optionMap invs b ≠ .ok () →
      bookBalanceOne accountMap optionMap invs b =
        .error (.balanceMismatch b.account b.amount (balActual invs b)
          (balDelta invs b) (balMaxDelta b))) := by
  have hzero : (0:Nat) < (Amount.zero b.amount.currency).amount.den := Nat.one_pos
  have hAden : 0 < (balActual invs b).amount.den := foldl_add_den_pos _ _ hzero hpos
  have hDden : 0 < (balDelta invs b).amount.den :=
    (ExactNum.sub_wf _ _ hden hAden).1
  have hrw : bookBalanceOne accountMap optionMap invs b =
      (if (balDelta invs b).abs.gt (balMaxDelta b) then
        .error (.balanceMismatch b.account b.amount (balActual invs b)
          (balDelta invs b) (balMaxDelta b))
      else .ok ()) := by
    rw [bookBalanceOne, hacct]
    rfl
  have hgt : ((balDelta invs b).abs.gt (balMaxDelta b) = true) ↔
      |(b.approx.getD ⟨0, 1⟩).val| <
        |b.amount.amount.val - (balActual invs b).amount.val| := by
    show ((b.approx.getD ⟨0, 1⟩).abs.blt (balDelta invs b).amount.abs = true) ↔ _
    rw [ExactNum.blt_iff ((b.approx.getD ⟨0, 1⟩).abs) ((balDelta invs b).amount.abs)
      (show 0 < (b.approx.getD ⟨0, 1⟩).abs.den from happrox)
      (show 0 < (balDelta invs b).amount.abs.den from hDden)]
    rw [ExactNum.abs_val, ExactNum.abs_val]
    show |(b.approx.getD ⟨0, 1⟩).val| < |(b.amount.amount.sub (balActual invs b).amount).val| ↔ _
    rw [ExactNum.sub_val _ _ hden hAden]
  refine ⟨?_, ?_, ?_, ?_, ?_⟩
  · rw [hrw]
    by_cases hb : ((balDelta invs b).abs.gt (balMaxDelta b) : Bool) = true
    · rw [if_pos hb]
      simp only [reduceCtorEq, false_iff, not_le]
      exact hgt.mp hb
    · rw [if_neg hb]
      simp only [true_iff]
      have := (not_iff_not.mpr hgt).mp hb
      exact le_of_not_lt this
  · have h2 := foldl_add_val _ _ hzero hpos
    have hz0 : (Amount.zero b.amount.currency).amount.val = 0 := by
      simp [Amount.zero, ExactNum.val]
    rw [hz0, zero_add] at h2
    exact h2
  · show (b.amount.amount.sub (balActual invs b).amount).val = _
    rw [ExactNum.sub_val _ _ hden hAden]
  · exact ExactNum.abs_val _
  · intro hne
    rw [hrw]
    by_cases hb : ((balDelta invs b).abs.gt (balMaxDelta b) : Bool) = true
    · rw [if_pos hb]
    · exact absurd (hrw.trans (if_neg hb)) hne

/-- C5 counterexample: in scenario S5 (actual `10.00 CHF`, expected
`10.01 CHF`, tolerance `0.005`) the reported delta is `+0.01`, not the
claimed `-0.01`; with tolerance `0.02` the assertion succeeds. -/
theorem balance_delta_sign_cex :
    bookBalanceOne am5 [] invs5 b5fail =
      .error (.balanceMismatch "Assets:Bank" ⟨⟨1001, 100⟩, "CHF"⟩ ⟨⟨10, 1⟩, "CHF"⟩
        ⟨⟨1, 100⟩, "CHF"⟩ ⟨⟨1, 200⟩, "CHF"⟩) ∧
    bookBalanceOne am5 [] invs5 b5fail ≠
      .error (.balanceMismatch "Assets:Bank" ⟨⟨1001, 100⟩, "CHF"⟩ ⟨⟨10, 1⟩, "CHF"⟩
        ⟨⟨-1, 100⟩, "CHF"⟩ ⟨⟨1, 200⟩, "CHF"⟩) ∧
    bookBalanceOne am5 [] invs5 b5ok = .ok () := by decide

/-- C5 witness: the amended theorem applied at scenario S5. -/
theorem balance_assertion_witness :
    (checkValidAccount am5 [] b5fail.account true =
       .ok (some (.opened ⟨0, "Assets:Bank", [], [], []⟩)) ∧
     0 < b5fail.amount.amount.den ∧ 0 < (b5fail.approx.getD ⟨0, 1⟩).den ∧
     ∀ p ∈ ((alookup invs5 b5fail.account).getD Inventory.Empty).getPositionsForCurrency
       b5fail.amount.currency, 0 < p.amount.amount.den) ∧
    ((bookBalanceOne am5 [] invs5 b5fail = .ok () ↔
       |b5fail.amount.amount.val - (balActual invs5 b5fail).amount.val| ≤
         |(b5fail.approx.getD ⟨0, 1⟩).val|) ∧
     (balActual invs5 b5fail).amount.val =
       ((((alookup invs5 b5fail.account).getD Inventory.Empty).getPositionsForCurrency
           b5fail.amount.currency).map (fun p => p.amount.amount.val)).sum ∧
     (balDelta invs5 b5fail).amount.val =
       b5fail.amount.amount.val - (balActual invs5 b5fail).amount.val ∧
     (balMaxDelta b5fail).amount.val = |(b5fail.approx.getD ⟨0, 1⟩).val| ∧
     (bookBalanceOne am5 [] invs5 b5fail ≠ .ok () →
       bookBalanceOne am5 [] invs5 b5fail =
         .error (.balanceMismatch b5fail.account b5fail.amount (balActual invs5 b5fail)
           (balDelta invs5 b5fail) (balMaxDelta b5fail)))) :=
  ⟨⟨by decide, by decide, by decide, by decide⟩,
   balance_assertion am5 [] invs5 b5fail
     (some (.opened ⟨0, "Assets:Bank", [], [], []⟩))
     (by decide) (by decide) (by decide) (by decide)⟩

/-! ### Claim C1: transaction balance law -/

theorem addAmounts_nil (inv : Inventory) : inv.addAmounts [] = inv := rfl

theorem addAmounts_cons (inv : Inventory) (a : Amount) (amts : List Amount) :
    inv.addAmounts (a :: amts) = (inv.addAmount a).addAmounts amts := rfl

theorem addAmounts_append (inv : Inventory) (xs ys : List Amount) :
    inv.addAmounts (xs ++ ys) = (inv.addAmounts xs).addAmounts ys := by
  simp [Inventory.addAmounts, Inventory.addPositions, List.foldl_append]

theorem doBook_fst (invs : InventoryMap) (bal : Inventory) (ps : List BookedPosting) :
    (doBook invs bal ps).1 = ps := rfl

theorem doBook_balance (invs : InventoryMap) (bal : Inventory) (ps : List BookedPosting) :
    (doBook invs bal ps).2.2 = bal.addAmounts (ps.map (fun p => p.amount)) := by
  suffices h : ∀ (ps : List BookedPosting) (st : InventoryMap × Inventory),
      (ps.foldl (fun (st : InventoryMap × Inventory) p =>
        (aset st.1 p.account
          (((alookup st.1 p.account).getD Inventory.Empty).addPosition ⟨p.amount, p.cost⟩),
         st.2.addAmount p.amount)) st).2 = st.2.addAmounts (ps.map (fun p => p.amount)) by
    exact h ps (invs, bal)
  intro ps
  induction ps with
  | nil => intro st; rfl
  | cons p ps ih =>
    intro st
    rw [List.foldl_cons, ih]
    rfl

theorem reductionFoldStep_spec (ta : String)
    (s : List BookedPosting × InventoryMap × Inventory) (rp : BookedPosting) :
    ∃ g, (reductionFoldStep ta s rp).1 = s.1 ++ g ∧
      (reductionFoldStep ta s rp).2.2 = s.2.2.addAmounts (g.map (fun p => p.amount)) :=
  ⟨_, rfl, doBook_balance _ _ _⟩

theorem reductionFold_spec (ta : String) (rps : List BookedPosting)
    (s : List BookedPosting × InventoryMap × Inventory) :
    ∃ bps, (rps.foldl (reductionFoldStep ta) s).1 = s.1 ++ bps ∧
      (rps.foldl (reductionFoldStep ta) s).2.2 =
        s.2.2.addAmounts (bps.map (fun p => p.amount)) := by
  induction rps generalizing s with
  | nil => exact ⟨[], by simp, rfl⟩
  | cons rp rps ih =>
    rw [List.foldl_cons]
    obtain ⟨g, hg1, hg2⟩ := reductionFoldStep_spec ta s rp
    obtain ⟨bps, h1, h2⟩ := ih (reductionFoldStep ta s rp)
    refine ⟨g ++ bps, ?_, ?_⟩
    · rw [h1, hg1, List.append_assoc]
    · rw [h2, hg2, List.map_append, addAmounts_append]

theorem bookPosting_balance (tx : TransactionDirective) (posting : Posting)
    (invs : InventoryMap) (bal : Inventory) (acct : Option AccountDir)
    (bps : List BookedPosting) (invs' : InventoryMap) (bal' : Inventory)
    (h : bookPosting tx posting invs bal acct = .ok (bps, invs', bal')) :
    bal' = bal.addAmounts (bps.map (fun p => p.amount)) := by
  cases hcs : posting.costSpec with
  | some cs =>
    cases hpa : posting.amount with
    | some pa =>
      by_cases hlen : cs.amounts.length > 0
      · -- Case A
        simp only [bookPosting, hcs, hpa, if_pos hlen] at h
        cases hv : validateCostSpecForAugmentation cs with
        | error e => rw [hv] at h; exact absurd h (by simp)
        | ok u =>
          rw [hv] at h
          have h' := (Except.ok.injEq _ _).mp h
          have hb : bal' = (doBook invs bal _).2.2 :=
            congrArg (fun (t : List BookedPosting × InventoryMap × Inventory) => t.2.2) h'.symm
          have hp : bps = (doBook invs bal _).1 :=
            congrArg (fun (t : List BookedPosting × InventoryMap × Inventory) => t.1) h'.symm
          rw [hb, doBook_balance]
          rw [hp, doBook_fst]
      · -- Case B
        simp only [bookPosting, hcs, hpa, if_neg hlen] at h
        split at h
        next => exact absurd h (by simp)
        next m hm =>
          split at h
          next => exact absurd h (by simp)
          next rps leftover hr =>
            have h' := (Except.ok.injEq _ _).mp h
            obtain ⟨g, hg1, hg2⟩ := reductionFold_spec
              (getTradingAccount tx posting (openDirOf acct)) rps
              ([], invs, bal)
            have hb : bal' = (rps.foldl (reductionFoldStep _) ([], invs, bal)).2.2 :=
              congrArg (fun (t : List BookedPosting × InventoryMap × Inventory) => t.2.2)
                h'.symm
            have hp : bps = (rps.foldl (reductionFoldStep _) ([], invs, bal)).1 :=
              congrArg (fun (t : List BookedPosting × InventoryMap × Inventory) => t.1)
                h'.symm
            rw [hb, hg2, hp, hg1]
            simp
    | none =>
      simp only [bookPosting, hcs, hpa] at h
      exact absurd h (by simp)
  | none =>
    cases hpa : posting.amount with
    | some pa =>
      simp only [bookPosting, hcs, hpa] at h
      have h' := (Except.ok.injEq _ _).mp h
      have hb : bal' = (doBook invs bal _).2.2 :=
        congrArg (fun (t : List BookedPosting × InventoryMap × Inventory) => t.2.2) h'.symm
      have hp : bps = (doBook invs bal _).1 :=
        congrArg (fun (t : List BookedPosting × InventoryMap × Inventory) => t.1) h'.symm
      rw [hb, doBook_balance]
      rw [hp, doBook_fst]
    | none =>
      simp only [bookPosting, hcs, hpa] at h
      have h' := (Except.ok.injEq _ _).mp h
      have hb : bal' = (doBook invs bal _).2.2 :=
        congrArg (fun (t : List BookedPosting × InventoryMap × Inventory) => t.2.2) h'.symm
      have hp : bps = (doBook invs bal _).1 :=
        congrArg (fun (t : List BookedPosting × InventoryMap × Inventory) => t.1) h'.symm
      rw [hb, doBook_balance]
      rw [hp, doBook_fst]

theorem bookPostingStep_spec (tx : TransactionDirective) (am : AccountMap)
    (st : List BookedPosting × InventoryMap × Inventory) (posting : Posting)
    (st' : List BookedPosting × InventoryMap × Inventory)
    (h : bookPostingStep tx am st posting = .ok st') :
    ∃ bps, st'.1 = st.1 ++ bps ∧
      st'.2.2 = st.2.2.addAmounts (bps.map (fun p => p.amount)) := by
  simp only [bookPostingStep] at h
  split at h
  next => exact absurd h (by simp)
  next acct hacct =>
    split at h
    next => exact absurd h (by simp)
    next bps invs bal hb =>
      have hbal := bookPosting_balance tx posting st.2.1 st.2.2 acct bps invs bal hb
      split at h
      · split at h
        next => exact absurd h (by simp)
        next =>
          have h' := (Except.ok.injEq _ _).mp h
          refine ⟨bps, ?_, ?_⟩
          · rw [← h']
          · rw [← h']
            exact hbal
      · have h' := (Except.ok.injEq _ _).mp h
        refine ⟨bps, ?_, ?_⟩
        · rw [← h']
        · rw [← h']
          exact hbal

theorem foldlM_postings_spec (tx : TransactionDirective) (am : AccountMap)
    (l : List Posting) (st st' : List BookedPosting × InventoryMap × Inventory)
    (h : l.foldlM (bookPostingStep tx am) st = .ok st') :
    ∃ bps, st'.1 = st.1 ++ bps ∧
      st'.2.2 = st.2.2.addAmounts (bps.map (fun p => p.amount)) := by
  induction l generalizing st with
  | nil =>
    simp only [List.foldlM_nil] at h
    have h' : st = st' := by
      have := (Except.ok.injEq _ _).mp h
      exact this
    refine ⟨[], ?_, ?_⟩
    · rw [← h']; simp
    · rw [← h']; rfl
  | cons p l ih =>
    rw [List.foldlM_cons] at h
    cases hs : bookPostingStep tx am st p with
    | error e =>
      rw [hs] at h
      exact absurd h (by simp [Bind.bind, Except.bind])
    | ok s1 =>
      rw [hs] at h
      have h' : l.foldlM (bookPostingStep tx am) s1 = .ok st' := h
      obtain ⟨g, hg1, hg2⟩ := bookPostingStep_spec tx am st p s1 hs
      obtain ⟨bps, h1, h2⟩ := ih s1 h'
      refine ⟨g ++ bps, ?_, ?_⟩
      · rw [h1, hg1, List.append_assoc]
      · rw [h2, hg2, List.map_append, addAmounts_append]

theorem alookup_aset_ne {β : Type} (l : List (String × β)) (k : String) (v : β)
    (k' : String) (h : k' ≠ k) : alookup (aset l k v) k' = alookup l k' := by
  induction l with
  | nil =>
    simp only [aset, alookup]
    rw [if_neg (fun he : k = k' => h he.symm)]
  | cons q qs ih =>
    by_cases hk : q.1 = k
    · simp only [aset, if_pos hk, alookup]
      rw [if_neg (fun he : k = k' => h he.symm), if_neg (fun he : q.1 = k' => h (hk ▸ he).symm)]
    · simp only [aset, if_neg hk, alookup, ih]

theorem alookup_adel_ne {β : Type} (l : List (String × β)) (k k' : String)
    (h : k' ≠ k) : alookup (adel l k) k' = alookup l k' := by
  induction l with
  | nil => rfl
  | cons q qs ih =>
    by_cases hk : q.1 = k
    · simp only [adel, if_pos hk, alookup]
      rw [if_neg (fun he : q.1 = k' => h (hk ▸ he).symm)]
    · simp only [adel, if_neg hk, alookup, ih]

theorem ciAdd_denpos (l : List Position) (p : Position)
    (hl : ∀ q ∈ l, 0 < q.amount.amount.den) (hp : 0 < p.amount.amount.den) :
    ∀ r ∈ ciAddPosition l p, 0 < r.amount.amount.den := by
  induction l with
  | nil => intro r hr; simp [ciAddPosition] at hr; simp [hr, hp]
  | cons q qs ih =>
    intro r hr
    have hq := hl q (List.mem_cons_self _ _)
    have hqs : ∀ x ∈ qs, 0 < x.amount.amount.den :=
      fun x hx => hl x (List.mem_cons_of_mem _ hx)
    by_cases hk : costKeyEq q.cost p.cost = true
    · simp only [ciAddPosition, if_pos hk] at hr
      by_cases hz : ((q.amount.add p.amount).amount.isZero : Bool) = true
      · simp only [if_pos hz] at hr
        exact hqs r hr
      · simp only [if_neg hz, List.mem_cons] at hr
        rcases hr with h | h
        · subst h
          exact ExactNum.add_den_pos _ _ hq hp
        · exact hqs r h
    · simp only [ciAddPosition, if_neg hk, List.mem_cons] at hr
      rcases hr with h | h
      · exact h ▸ hq
      · exact ih hqs r h

theorem ciAdd_sumval (l : List Position) (p : Position)
    (hl : ∀ q ∈ l, 0 < q.amount.amount.den) (hp : 0 < p.amount.amount.den) :
    ((ciAddPosition l p).map (fun q => q.amount.amount.val)).sum =
      (l.map (fun q => q.amount.amount.val)).sum + p.amount.amount.val := by
  induction l with
  | nil => simp [ciAddPosition]
  | cons q qs ih =>
    have hq := hl q (List.mem_cons_self _ _)
    have hqs : ∀ x ∈ qs, 0 < x.amount.amount.den :=
      fun x hx => hl x (List.mem_cons_of_mem _ hx)
    by_cases hk : costKeyEq q.cost p.cost = true
    · simp only [ciAddPosition, if_pos hk]
      by_cases hz : ((q.amount.add p.amount).amount.isZero : Bool) = true
      · simp only [if_pos hz]
        have hzero : (q.amount.add p.amount).amount.val = 0 :=
          (ExactNum.isZero_iff _ (ExactNum.add_den_pos _ _ hq hp)).mp hz
        have : q.amount.amount.val + p.amount.amount.val = 0 := by
          rw [← ExactNum.add_val _ _ hq hp]
          exact hzero
        simp only [List.map_cons, List.sum_cons]
        linarith
      · simp only [if_neg hz, List.map_cons, List.sum_cons]
        have hval : (q.amount.add p.amount).amount.val =
            q.amount.amount.val + p.amount.amount.val := ExactNum.add_val _ _ hq hp
        rw [hval]
        ring
    · simp only [ciAddPosition, if_neg hk, List.map_cons, List.sum_cons, ih hqs]
      ring

theorem addPosition_dpos (inv : Inventory) (p : Position) (hd : inv.DPos)
    (hp : 0 < p.amount.amount.den) : (inv.addPosition p).DPos := by
  obtain ⟨hnd, hden⟩ := hd
  by_cases hz : (p.amount.isZero : Bool) = true
  · rw [addPosition_zero inv p hz]; exact ⟨hnd, hden⟩
  · have hz' : p.amount.isZero = false := by
      cases h' : p.amount.isZero with
      | true => exact absurd h' hz
      | false => rfl
    have hstep : (inv.addPosition p).entries =
        if (ciAddPosition ((alookup inv.entries p.amount.currency).getD []) p).isEmpty
        then adel inv.entries p.amount.currency
        else aset inv.entries p.amount.currency
          (ciAddPosition ((alookup inv.entries p.amount.currency).getD []) p) := by
      simp only [Inventory.addPosition, Inventory.addPositions, List.foldl_cons,
        List.foldl_nil, hz', Bool.false_eq_true, if_false]
    have hcur : ∀ q ∈ (alookup inv.entries p.amount.currency).getD [],
        0 < q.amount.amount.den := by
      cases hl : alookup inv.entries p.amount.currency with
      | none => simp
      | some l =>
        have hm := alookup_mem _ _ _ hl
        simp only [Option.getD_some]
        exact hden (p.amount.currency, l) hm
    constructor
    · rw [hstep]
      split
      · exact nodup_keys_adel _ _ hnd
      · exact nodup_keys_aset _ _ _ hnd
    · rw [hstep]
      split
      · intro e he
        exact hden e ((adel_sublist _ _).subset he)
      · intro e he
        rcases mem_aset _ _ _ e he with h | h
        · subst h
          exact ciAdd_denpos _ p hcur hp
        · exact hden e h

theorem invValC_addPosition (inv : Inventory) (p : Position) (c : String)
    (hd : inv.DPos) (hp : 0 < p.amount.amount.den) :
    invValC (inv.addPosition p) c =
      invValC inv c + (if p.amount.currency = c then p.amount.amount.val else 0) := by
  obtain ⟨hnd, hden⟩ := hd
  by_cases hz : (p.amount.isZero : Bool) = true
  · rw [addPosition_zero inv p hz]
    have hval : p.amount.amount.val = 0 := (ExactNum.isZero_iff _ hp).mp hz
    by_cases hcc : p.amount.currency = c
    · rw [if_pos hcc, hval, add_zero]
    · rw [if_neg hcc, add_zero]
  · have hz' : p.amount.isZero = false := by
      cases h' : p.amount.isZero with
      | true => exact absurd h' hz
      | false => rfl
    have hstep : (inv.addPosition p).entries =
        if (ciAddPosition ((alookup inv.entries p.amount.currency).getD []) p).isEmpty
        then adel inv.entries p.amount.currency
        else aset inv.entries p.amount.currency
          (ciAddPosition ((alookup inv.entries p.amount.currency).getD []) p) := by
      simp only [Inventory.addPosition, Inventory.addPositions, List.foldl_cons,
        List.foldl_nil, hz', Bool.false_eq_true, if_false]
    have hcur : ∀ q ∈ (alookup inv.entries p.amount.currency).getD [],
        0 < q.amount.amount.den := by
      cases hl : alookup inv.entries p.amount.currency with
      | none => simp
      | some l =>
        have hm := alookup_mem _ _ _ hl
        simp only [Option.getD_some]
        exact hden (p.amount.currency, l) hm
    have hsum := ciAdd_sumval ((alookup inv.entries p.amount.currency).getD []) p hcur hp
    by_cases hcc : p.amount.currency = c
    · subst hcc
      rw [if_pos rfl]
      unfold invValC
      rw [hstep]
      split
      next hemp =>
        have hnil : ciAddPosition ((alookup inv.entries p.amount.currency).getD []) p = [] := by
          cases hx : ciAddPosition ((alookup inv.entries p.amount.currency).getD []) p with
          | nil => rfl
          | cons a l => rw [hx] at hemp; simp at hemp
        rw [alookup_adel_self _ _ hnd]
        rw [hnil] at hsum
        simp only [List.map_nil, List.sum_nil] at hsum
        simp [← hsum]
      next hemp =>
        rw [alookup_aset_self]
        simp only [Option.getD_some]
        exact hsum
    · rw [if_neg hcc, add_zero]
      unfold invValC
      rw [hstep]
      split
      · rw [alookup_adel_ne inv.entries p.amount.currency c (fun he => hcc he.symm)]
      · rw [alookup_aset_ne inv.entries p.amount.currency _ c (fun he => hcc he.symm)]

theorem invValC_addAmounts (inv : Inventory) (amts : List Amount) (c : String)
    (hd : inv.DPos) (ha : ∀ a ∈ amts, 0 < a.amount.den) :
    invValC (inv.addAmounts amts) c = invValC inv c + amountsValC amts c := by
  induction amts generalizing inv with
  | nil =>
    rw [addAmounts_nil]
    simp [amountsValC]
  | cons a amts ih =>
    rw [addAmounts_cons]
    have hden := ha a (List.mem_cons_self _ _)
    have hrest : ∀ x ∈ amts, 0 < x.amount.den :=
      fun x hx => ha x (List.mem_cons_of_mem _ hx)
    rw [ih (inv.addAmount a) (addPosition_dpos inv ⟨a, none⟩ hd hden) hrest]
    have hone : invValC (inv.addAmount a) c =
        invValC inv c + (if a.currency = c then a.amount.val else 0) :=
      invValC_addPosition inv ⟨a, none⟩ c hd hden
    rw [hone]
    simp only [amountsValC, List.map_cons, List.sum_cons]
    ring

theorem empty_dpos : Inventory.Empty.DPos := by
  constructor
  · simp [Inventory.Empty]
  · intro e he
    simp [Inventory.Empty] at he

theorem invValC_empty (c : String) : invValC Inventory.Empty c = 0 := rfl

/-- C1: a successfully booked transaction (with well-formed posting
denominators) has booked-posting amounts summing to zero in every
currency, and a posting fold ending with a non-empty running balance
makes `bookTransaction` fail with `TransactionUnbalanced` carrying that
residual. -/
theorem transaction_balance_law
    (tx tx' : TransactionDirective) (inventories inventories' : InventoryMap)
    (accountMap accountMap' : AccountMap) (t : Transaction)
    (ps' : List BookedPosting) (invs' : InventoryMap) (bal' : Inventory) (c : String)
    (hok : bookTransaction tx inventories accountMap = .ok t)
    (hden : ∀ p ∈ t.postings, 0 < p.amount.amount.den)
    (hfold : bookPostingsFold tx' inventories' accountMap' = .ok (ps', invs', bal'))
    (hne : bal'.isEmpty = false) :
    amountsValC (t.postings.map (fun p => p.amount)) c = 0 ∧
    bookTransaction tx' inventories' accountMap' = .error (.transactionUnbalanced bal') := by
  constructor
  · cases hf : bookPostingsFold tx inventories accountMap with
    | error e =>
      simp only [bookTransaction, hf] at hok
      exact absurd hok (by simp)
    | ok triple =>
      obtain ⟨ps0, invs0, bal0⟩ := triple
      simp only [bookTransaction, hf] at hok
      by_cases hemp : (bal0.isEmpty : Bool) = true
      · rw [if_pos hemp] at hok
        have ht := (Except.ok.injEq _ _).mp hok
        have hps : t.postings = ps0 := by rw [← ht]
        rw [bookPostingsFold] at hf
        obtain ⟨bps, h1, h2⟩ := foldlM_postings_spec tx accountMap tx.postings
          ([], inventories, Inventory.Empty) (ps0, invs0, bal0) hf
        simp only [List.nil_append] at h1 h2
        have hbal0 : bal0.entries = [] := by
          simpa [Inventory.isEmpty, List.isEmpty_iff] using hemp
        have hzero : invValC bal0 c = 0 := by
          simp [invValC, hbal0, alookup]
        have hdens : ∀ a ∈ bps.map (fun p => p.amount), 0 < a.amount.den := by
          intro a ha
          obtain ⟨p, hp, rfl⟩ := List.mem_map.mp ha
          exact hden p (by rw [hps, h1]; exact hp)
        have hval := invValC_addAmounts Inventory.Empty (bps.map (fun p => p.amount)) c
          empty_dpos hdens
        rw [invValC_empty, zero_add, ← h2, hzero] at hval
        rw [hps, h1]
        exact hval.symm
      · rw [if_neg hemp] at hok
        exact absurd hok (by simp)
  · simp only [bookTransaction, hfold]
    rw [if_neg (by rw [hne]; exact Bool.false_ne_true)]

/-- C1 witness: the balance law at a two-posting `+10, -10 USD`
transaction, the residual error at its one-posting variant. -/
theorem transaction_balance_law_witness :
    (bookTransaction txC1 [] [] = .ok tC1 ∧
     (∀ p ∈ tC1.postings, 0 < p.amount.amount.den) ∧
     bookPostingsFold txC1bad [] [] =
       .ok ([⟨"Assets:A", "*", ⟨⟨10, 1⟩, "USD"⟩, none, []⟩],
         [("Assets:A", ⟨[("USD", [⟨⟨⟨10, 1⟩, "USD"⟩, none⟩])]⟩)], balC1bad) ∧
     balC1bad.isEmpty = false) ∧
    (amountsValC (tC1.postings.map (fun p => p.amount)) "USD" = 0 ∧
     bookTransaction txC1bad [] [] = .error (.transactionUnbalanced balC1bad)) :=
  ⟨⟨by decide, by decide, by decide, by decide⟩,
   transaction_balance_law txC1 txC1bad [] [] [] [] tC1
     [⟨"Assets:A", "*", ⟨⟨10, 1⟩, "USD"⟩, none, []⟩]
     [("Assets:A", ⟨[("USD", [⟨⟨⟨10, 1⟩, "USD"⟩, none⟩])]⟩)] balC1bad "USD"
     (by decide) (by decide) (by decide) (by decide)⟩

/-! ### Claim C2: FIFO/LIFO consumption order (heap correctness) -/

/-! Heap groundwork: reads, writes, counts, the subtree relation. -/

theorem lget_eq_getElem {α : Type} [Inhabited α] (l : List α) (i : Nat)
    (h : i < l.length) : lget l i = l[i] := by
  simp [lget, List.getD_eq_getElem?_getD, List.getElem?_eq_getElem h]

theorem lget_mem {α : Type} [Inhabited α] (l : List α) (i : Nat)
    (h : i < l.length) : lget l i ∈ l := by
  rw [lget_eq_getElem l i h]
  exact List.getElem_mem h

theorem lget_set_self {α : Type} [Inhabited α] (l : List α) (i : Nat) (v : α)
    (h : i < l.length) : lget (l.set i v) i = v := by
  simp [lget, List.getD]
  rw [List.getElem?_set_self]
  · simp
  · exact h

theorem lget_set_ne {α : Type} [Inhabited α] (l : List α) (i j : Nat) (v : α)
    (h : j ≠ i) : lget (l.set i v) j = lget l j := by
  simp only [lget, List.getD, List.get?_eq_getElem?]
  rw [List.getElem?_set_ne (fun he => h he.symm)]

theorem set_lget_self {α : Type} [Inhabited α] (l : List α) (i : Nat)
    (h : i < l.length) : l.set i (lget l i) = l := by
  rw [lget_eq_getElem l i h]
  apply List.ext_getElem?
  intro n
  by_cases hn : n = i
  · subst hn; rw [List.getElem?_set_self h]; simp [List.getElem?_eq_getElem h]
  · rw [List.getElem?_set_ne (fun he => hn he.symm)]

theorem lget_dropLast {α : Type} [Inhabited α] (l : List α) (i : Nat)
    (h : i < l.length - 1) : lget l.dropLast i = lget l i := by
  simp only [lget, List.getD, List.get?_eq_getElem?]
  rw [List.getElem?_dropLast]
  simp [h]

theorem count_set_add {α : Type} [Inhabited α] [DecidableEq α] (a : α) :
    ∀ (l : List α) (i : Nat) (v : α), i < l.length →
      (l.set i v).count a + (if lget l i = a then 1 else 0) =
        l.count a + (if v = a then 1 else 0) := by
  intro l
  induction l with
  | nil => intro i v h; simp at h
  | cons x t ih =>
    intro i v h
    cases i with
    | zero =>
      have hset : (x :: t).set 0 v = v :: t := rfl
      have hlg : lget (x :: t) 0 = x := rfl
      rw [hset, hlg]
      simp only [List.count_cons]
      by_cases hx : x = a <;> by_cases hv : v = a <;> simp [hx, hv, beq_iff_eq] <;> omega
    | succ n =>
      have hset : (x :: t).set (n + 1) v = x :: t.set n v := rfl
      rw [hset]
      simp only [List.count_cons]
      have hn : n < t.length := by simpa using h
      have := ih n v hn
      have hlg : lget (x :: t) (n + 1) = lget t n := by
        simp [lget, List.getD, List.getElem?_cons_succ]
      rw [hlg]
      by_cases hx : x = a <;> simp [hx, beq_iff_eq] <;> omega

theorem perm_shift {α : Type} [Inhabited α] [DecidableEq α] (l : List α)
    (i j : Nat) (v : α) (hi : i < l.length) (hj : j < l.length) (hij : i ≠ j) :
    ((l.set i (lget l j)).set j v).Perm (l.set i v) := by
  rw [List.perm_iff_count]
  intro a
  have h1 := count_set_add a l i (lget l j) hi
  have h2 := count_set_add a (l.set i (lget l j)) j v (by simpa using hj)
  have h3 := count_set_add a l i v hi
  have hlg : lget (l.set i (lget l j)) j = lget l j := lget_set_ne l i j _ (fun he => hij he.symm)
  rw [hlg] at h2
  by_cases ha1 : lget l i = a <;> by_cases ha2 : lget l j = a <;> by_cases ha3 : v = a <;>
    simp [ha1, ha2, ha3] at h1 h2 h3 ⊢ <;> omega

theorem Desc.ge {s i : Nat} (h : Desc s i) : s ≤ i := by
  induction h with
  | refl => exact Nat.le_refl s
  | left _ ih => omega
  | right _ ih => omega

theorem Desc.inv {s i : Nat} (h : Desc s i) :
    i = s ∨ ∃ j, Desc s j ∧ (i = 2 * j + 1 ∨ i = 2 * j + 2) := by
  cases h with
  | refl => exact Or.inl rfl
  | left hj => exact Or.inr ⟨_, hj, Or.inl rfl⟩
  | right hj => exact Or.inr ⟨_, hj, Or.inr rfl⟩

theorem Desc.trans {a b c : Nat} (h1 : Desc a b) (h2 : Desc b c) : Desc a c := by
  induction h2 with
  | refl => exact h1
  | left _ ih => exact ih.left
  | right _ ih => exact ih.right

theorem desc_zero (i : Nat) : Desc 0 i := by
  induction i using Nat.strong_induction_on with
  | _ i ih =>
    match i with
    | 0 => exact Desc.refl
    | i + 1 =>
      have hp : (i + 1 - 1) / 2 < i + 1 := by omega
      have hd : Desc 0 (i / 2) := ih (i / 2) (by omega)
      rcases Nat.even_or_odd i with he | ho
      · obtain ⟨k, hk⟩ := he
        have : i + 1 = 2 * (i / 2) + 1 := by omega
        rw [this]
        exact hd.left
      · obtain ⟨k, hk⟩ := ho
        have : i + 1 = 2 * (i / 2) + 2 := by omega
        rw [this]
        exact hd.right

theorem Desc.parent {s c : Nat} (h : Desc s c) (hne : c ≠ s) :
    Desc s ((c - 1) / 2) ∧ (c = 2 * ((c - 1) / 2) + 1 ∨ c = 2 * ((c - 1) / 2) + 2) ∧ 0 < c := by
  rcases h.inv with h' | ⟨j, hj, hc⟩
  · exact absurd h' hne
  · rcases hc with hc | hc
    · have : (c - 1) / 2 = j := by omega
      rw [this]
      exact ⟨hj, by omega⟩
    · have : (c - 1) / 2 = j := by omega
      rw [this]
      exact ⟨hj, by omega⟩

theorem desc_parent_child {p c : Nat} (h : c = 2 * p + 1 ∨ c = 2 * p + 2) : Desc p c := by
  rcases h with h | h
  · rw [h]; exact Desc.refl.left
  · rw [h]; exact Desc.refl.right

theorem not_desc_of_lt {s i : Nat} (h : i < s) : ¬ Desc s i :=
  fun hd => absurd hd.ge (by omega)

theorem desc_split {s c : Nat} (h : Desc s c) :
    c = s ∨ Desc (2 * s + 1) c ∨ Desc (2 * s + 2) c := by
  induction h with
  | refl => exact Or.inl rfl
  | left hj ih =>
    rcases ih with rfl | ih | ih
    · exact Or.inr (Or.inl Desc.refl)
    · exact Or.inr (Or.inl ih.left)
    · exact Or.inr (Or.inr ih.left)
  | right hj ih =>
    rcases ih with rfl | ih | ih
    · exact Or.inr (Or.inr Desc.refl)
    · exact Or.inr (Or.inl ih.right)
    · exact Or.inr (Or.inr ih.right)

theorem not_desc_sibling_r {s : Nat} : ¬ Desc (2 * s + 1) (2 * s + 2) := by
  intro h
  rcases h.inv with h' | ⟨j, hj, hc⟩
  · omega
  · have hge := hj.ge
    omega

theorem not_desc_sibling_l {s : Nat} : ¬ Desc (2 * s + 2) (2 * s + 1) :=
  fun h => absurd h.ge (by omega)

theorem subtree_disjoint {s : Nat} : ∀ x, Desc (2 * s + 1) x → Desc (2 * s + 2) x → False := by
  intro x
  induction x using Nat.strong_induction_on with
  | _ x ih =>
    intro h1 h2
    by_cases hx1 : x = 2 * s + 1
    · subst hx1; exact not_desc_sibling_l h2
    · by_cases hx2 : x = 2 * s + 2
      · subst hx2; exact not_desc_sibling_r h1
      · obtain ⟨hp1, harith, hpos⟩ := h1.parent hx1
        obtain ⟨hp2, _, _⟩ := h2.parent hx2
        have hlt : (x - 1) / 2 < x := by
          have := hp1.ge
          omega
        exact ih _ hlt hp1 hp2

theorem keyCmp_true {α : Type} (f : α → Int) {a b : α} (h : keyCmp f a b = true) :
    f a < f b := by simpa [keyCmp] using h

theorem keyCmp_false {α : Type} (f : α → Int) {a b : α} (h : keyCmp f a b = false) :
    f b ≤ f a := by
  have : ¬ (f a < f b) := by simpa [keyCmp] using h
  omega

theorem siftLoop_spec {α : Type} [Inhabited α] [DecidableEq α] (f : α → Int)
    (size : Nat) (top : α) :
    ∀ (fuel : Nat) (l : List α) (start child : Nat),
      size ≤ l.length →
      start < child →
      (child = 2 * start + 1 ∨ child = 2 * start + 2) →
      child < size →
      size ≤ child + fuel →
      f top ≤ f (lget l child) →
      (∀ c', (c' = 2 * start + 1 ∨ c' = 2 * start + 2) → c' < size →
        f (lget l c') ≤ f (lget l child)) →
      (∀ c, c < size → Desc start c → c ≠ start → (c - 1) / 2 ≠ start → 0 < c →
        f (lget l c) ≤ f (lget l ((c - 1) / 2))) →
      (∀ i, ¬ Desc start i → lget (siftLoop (keyCmp f) size top l start child fuel) i = lget l i) ∧
      (∀ i, size ≤ i → lget (siftLoop (keyCmp f) size top l start child fuel) i = lget l i) ∧
      (siftLoop (keyCmp f) size top l start child fuel).Perm (l.set start top) ∧
      lget (siftLoop (keyCmp f) size top l start child fuel) start = lget l child ∧
      (∀ c, c < size → Desc start c → c ≠ start →
        f (lget (siftLoop (keyCmp f) size top l start child fuel) c) ≤
          f (lget (siftLoop (keyCmp f) size top l start child fuel) ((c - 1) / 2))) := by
  intro fuel
  induction fuel with
  | zero =>
    intro l start child hlen hsc hchild hcs hfuel _ _ _
    omega
  | succ n ih =>
    intro l start child hlen hsc hchild hcs hfuel htop hsel hsub
    have hslen : start < l.length := by omega
    have hclen : child < l.length := by omega
    have hdchild : Desc start child := desc_parent_child hchild
    have hcpar : (child - 1) / 2 = start := by omega
    -- the written slot view
    have hl2start : lget (l.set start (lget l child)) start = lget l child :=
      lget_set_self l start _ hslen
    have hl2ne : ∀ i, i ≠ start → lget (l.set start (lget l child)) i = lget l i :=
      fun i hi => lget_set_ne l start i _ hi
    have hlen2 : (l.set start (lget l child)).length = l.length := by simp
    simp only [siftLoop]
    by_cases hbr : size - 2 < 2 * child
    · rw [if_pos hbr]
      -- result: (l.set start (lget l child)).set child top
      have hres_at : ∀ i, i ≠ start → i ≠ child →
          lget ((l.set start (lget l child)).set child top) i = lget l i := by
        intro i hi1 hi2
        rw [lget_set_ne _ child i _ hi2, hl2ne i hi1]
      have hres_child : lget ((l.set start (lget l child)).set child top) child = top := by
        apply lget_set_self
        rw [hlen2]; exact hclen
      have hres_start : lget ((l.set start (lget l child)).set child top) start = lget l child := by
        rw [lget_set_ne _ child start _ (by omega), hl2start]
      refine ⟨?_, ?_, ?_, ?_, ?_⟩
      · intro i hi
        exact hres_at i (fun h => hi (h ▸ Desc.refl)) (fun h => hi (h ▸ hdchild))
      · intro i hi
        exact hres_at i (by omega) (by omega)
      · exact perm_shift l start child top hslen hclen (by omega)
      · exact hres_start
      · intro c hc hdesc hcne
        have hc0 : 0 < c := by
          have := hdesc.ge
          omega
        by_cases hcc : c = child
        · subst hcc
          rw [hcpar, hres_child, hres_start]
          exact htop
        · by_cases hpar : (c - 1) / 2 = start
          · -- c is the other child of start
            obtain ⟨_, harith, _⟩ := hdesc.parent hcne
            rw [hpar] at harith
            rw [hpar, hres_start, hres_at c hcne hcc]
            exact hsel c harith hc
          · -- untouched pair
            have hparc : (c - 1) / 2 ≠ child := by
              intro he
              obtain ⟨_, harith, _⟩ := hdesc.parent hcne
              rw [he] at harith
              omega
            rw [hres_at c hcne hcc, hres_at _ hpar hparc]
            exact hsub c hc hdesc hcne hpar hc0
    · rw [if_neg hbr]
      -- children of child exist; select the larger
      have hc1lt : 2 * child + 1 < size := by omega
      set l2 := l.set start (lget l child) with hl2def
      set c2 := if (2 * child + 1) + 1 < size && keyCmp f (lget l2 (2 * child + 1))
          (lget l2 ((2 * child + 1) + 1)) then (2 * child + 1) + 1 else 2 * child + 1 with hc2def
      have hc2cases : c2 = 2 * child + 1 ∨ c2 = 2 * child + 2 := by
        rw [hc2def]
        split
        · right; omega
        · left; rfl
      have hc2lt : c2 < size := by
        rw [hc2def]
        split
        next hcond =>
          have := (Bool.and_eq_true _ _).mp hcond
          have := of_decide_eq_true this.1
          omega
        next => omega
      have hplus : (2 * child + 1) + 1 = 2 * child + 2 := by omega
      have hc2max : ∀ c', (c' = 2 * child + 1 ∨ c' = 2 * child + 2) → c' < size →
          f (lget l2 c') ≤ f (lget l2 c2) := by
        intro c' hc' hc'lt
        rw [hc2def]
        split
        next hcond =>
          have hkey := (Bool.and_eq_true _ _).mp hcond
          have hlt := keyCmp_true f hkey.2
          rcases hc' with h | h <;> subst h
          · exact le_of_lt hlt
          · rw [hplus]
        next hcond =>
          rcases hc' with h | h <;> subst h
          · exact Int.le_refl _
          · by_cases hk : keyCmp f (lget l2 (2 * child + 1)) (lget l2 ((2 * child + 1) + 1)) = true
            · have hsz : (2 * child + 1) + 1 < size := by omega
              exact absurd (by simp [hsz, hk]) hcond
            · have hk' : keyCmp f (lget l2 (2 * child + 1))
                  (lget l2 ((2 * child + 1) + 1)) = false := by
                cases hkc : keyCmp f (lget l2 (2 * child + 1)) (lget l2 ((2 * child + 1) + 1)) with
                | true => exact absurd hkc hk
                | false => rfl
              have := keyCmp_false f hk'
              rw [hplus] at this
              exact this
      have hdc2 : Desc start c2 := hdchild.trans (desc_parent_child hc2cases)
      have hc2par : (c2 - 1) / 2 = child := by omega
      by_cases hif : keyCmp f (lget l2 c2) top = true
      · rw [if_pos hif]
        have hlt_top := keyCmp_true f hif
        have hres_at : ∀ i, i ≠ start → i ≠ child → lget (l2.set child top) i = lget l i := by
          intro i h1 h2
          rw [lget_set_ne _ child i _ h2, hl2ne i h1]
        have hres_child : lget (l2.set child top) child = top := by
          apply lget_set_self
          rw [hlen2]; exact hclen
        have hres_start : lget (l2.set child top) start = lget l child := by
          rw [lget_set_ne _ child start _ (by omega), hl2start]
        refine ⟨?_, ?_, ?_, ?_, ?_⟩
        · intro i hi
          exact hres_at i (fun h => hi (h ▸ Desc.refl)) (fun h => hi (h ▸ hdchild))
        · intro i hi
          exact hres_at i (by omega) (by omega)
        · exact perm_shift l start child top hslen hclen (by omega)
        · exact hres_start
        · intro c hc hdesc hcne
          have hc0 : 0 < c := by
            have := hdesc.ge
            omega
          by_cases hcc : c = child
          · subst hcc
            rw [hcpar, hres_child, hres_start]
            exact htop
          · by_cases hpar : (c - 1) / 2 = start
            · obtain ⟨_, harith, _⟩ := hdesc.parent hcne
              rw [hpar] at harith
              rw [hpar, hres_start, hres_at c hcne hcc]
              exact hsel c harith hc
            · by_cases hparc : (c - 1) / 2 = child
              · -- c is a child of `child`
                obtain ⟨_, harith, _⟩ := hdesc.parent hcne
                rw [hparc] at harith
                rw [hparc, hres_child, hres_at c hcne hcc]
                have h1 : f (lget l2 c) ≤ f (lget l2 c2) := hc2max c harith hc
                rw [hl2ne c (by omega)] at h1
                exact le_of_lt (lt_of_le_of_lt h1 hlt_top)
              · rw [hres_at c hcne hcc, hres_at _ hpar hparc]
                exact hsub c hc hdesc hcne hpar hc0
      · rw [if_neg hif]
        have hif' : keyCmp f (lget l2 c2) top = false := by
          cases hkc : keyCmp f (lget l2 c2) top with
          | true => exact absurd hkc hif
          | false => rfl
        have htop2 : f top ≤ f (lget l2 c2) := keyCmp_false f hif'
        have hsub2 : ∀ c, c < size → Desc child c → c ≠ child → (c - 1) / 2 ≠ child → 0 < c →
            f (lget l2 c) ≤ f (lget l2 ((c - 1) / 2)) := by
          intro c hc hdc hne hpne hc0
          have hcgt : child < c := by
            have := hdc.ge
            omega
          obtain ⟨hdp, _, _⟩ := hdc.parent hne
          have hpge := hdp.ge
          rw [hl2ne c (by omega), hl2ne _ (by omega)]
          exact hsub c hc (hdchild.trans hdc) (by omega) (by omega) hc0
        obtain ⟨A, A2, P, E, H⟩ := ih l2 child c2 (by rw [hlen2]; exact hlen)
          (by omega) hc2cases hc2lt (by omega) htop2 hc2max hsub2
        have hRstart : lget (siftLoop (keyCmp f) size top l2 child c2 n) start = lget l child := by
          rw [A start (not_desc_of_lt (by omega)), hl2start]
        refine ⟨?_, ?_, ?_, ?_, ?_⟩
        · intro i hi
          have hic : ¬ Desc child i := fun h => hi (hdchild.trans h)
          rw [A i hic, hl2ne i (fun h => hi (h ▸ Desc.refl))]
        · intro i hi
          rw [A2 i hi, hl2ne i (by omega)]
        · exact P.trans (perm_shift l start child top hslen hclen (by omega))
        · exact hRstart
        · intro c hc hdesc hcne
          have hc0 : 0 < c := by
            have := hdesc.ge
            omega
          by_cases hdc : Desc child c
          · by_cases hcc : c = child
            · subst hcc
              rw [hcpar, hRstart, E]
              rw [hl2ne c2 (by omega)]
              have := hsub c2 hc2lt hdc2 (by omega) (by rw [hc2par]; omega) (by omega)
              rw [hc2par] at this
              exact this
            · exact H c hc hdc hcc
          · have hcc : c ≠ child := fun h => hdc (h ▸ Desc.refl)
            have hval_c : lget (siftLoop (keyCmp f) size top l2 child c2 n) c = lget l c := by
              rw [A c hdc, hl2ne c (by omega)]
            by_cases hpar : (c - 1) / 2 = start
            · obtain ⟨_, harith, _⟩ := hdesc.parent hcne
              rw [hpar] at harith
              rw [hpar, hval_c, hRstart]
              exact hsel c harith hc
            · -- c sits in the sibling subtree; its parent too
              have hsib : ∃ sib, (sib = 2 * start + 1 ∨ sib = 2 * start + 2) ∧ sib ≠ child ∧
                  Desc sib c := by
                rcases desc_split hdesc with h | h | h
                · exact absurd h hcne
                · refine ⟨2 * start + 1, Or.inl rfl, fun he => ?_, h⟩
                  rw [← he] at hdc
                  exact hdc h
                · refine ⟨2 * start + 2, Or.inr rfl, fun he => ?_, h⟩
                  rw [← he] at hdc
                  exact hdc h
              obtain ⟨sib, hsib12, hsibne, hdsib⟩ := hsib
              have hcsib : c ≠ sib := by
                intro he
                subst he
                omega
              obtain ⟨hdp, _, _⟩ := hdsib.parent hcsib
              have hpnd : ¬ Desc child ((c - 1) / 2) := by
                intro hcontra
                rcases hchild with hch | hch <;> rcases hsib12 with hs | hs <;>
                  subst hch <;> subst hs
                · omega
                · exact subtree_disjoint _ hcontra hdp
                · exact subtree_disjoint _ hdp hcontra
                · omega
              have hval_p : lget (siftLoop (keyCmp f) size top l2 child c2 n) ((c - 1) / 2) =
                  lget l ((c - 1) / 2) := by
                rw [A _ hpnd, hl2ne _ hpar]
              rw [hval_c, hval_p]
              exact hsub c hc hdesc hcne hpar hc0

theorem siftDown_spec {α : Type} [Inhabited α] [DecidableEq α] (f : α → Int)
    (l : List α) (size start : Nat) (hlen : size ≤ l.length)
    (hsub : ∀ c, c < size → Desc start c → c ≠ start → (c - 1) / 2 ≠ start → 0 < c →
      f (lget l c) ≤ f (lget l ((c - 1) / 2))) :
    (∀ i, ¬ Desc start i → lget (siftDown (keyCmp f) l size start) i = lget l i) ∧
    (∀ i, size ≤ i → lget (siftDown (keyCmp f) l size start) i = lget l i) ∧
    (siftDown (keyCmp f) l size start).Perm l ∧
    (∀ c, c < size → Desc start c → c ≠ start →
      f (lget (siftDown (keyCmp f) l size start) c) ≤
        f (lget (siftDown (keyCmp f) l size start) ((c - 1) / 2))) := by
  simp only [siftDown]
  by_cases hg : size < 2 ∨ size - 2 < 2 * start
  · have hgb : (decide (size < 2) || decide (size - 2 < 2 * start)) = true := by
      rcases hg with h | h <;> simp [h]
    rw [if_pos hgb]
    refine ⟨fun i _ => rfl, fun i _ => rfl, List.Perm.refl l, ?_⟩
    intro c hc hdesc hcne
    by_cases hpar : (c - 1) / 2 = start
    · obtain ⟨_, harith, _⟩ := hdesc.parent hcne
      rw [hpar] at harith
      rcases hg with h | h <;> omega
    · have hc0 : 0 < c := by
        have := hdesc.ge
        omega
      exact hsub c hc hdesc hcne hpar hc0
  · push_neg at hg
    have hgb : (decide (size < 2) || decide (size - 2 < 2 * start)) = false := by
      simp [hg.1, hg.2]
    rw [hgb]
    simp only [Bool.false_eq_true, if_false]
    have hstart_lt : start < size := by omega
    have hc1lt : 2 * start + 1 < size := by omega
    have hslen : start < l.length := by omega
    set c2 := if (2 * start + 1) + 1 < size && keyCmp f (lget l (2 * start + 1))
        (lget l ((2 * start + 1) + 1)) then (2 * start + 1) + 1 else 2 * start + 1 with hc2def
    have hplus : (2 * start + 1) + 1 = 2 * start + 2 := by omega
    have hc2cases : c2 = 2 * start + 1 ∨ c2 = 2 * start + 2 := by
      rw [hc2def]
      split
      · right; omega
      · left; rfl
    have hc2lt : c2 < size := by
      rw [hc2def]
      split
      next hcond =>
        have := (Bool.and_eq_true _ _).mp hcond
        have := of_decide_eq_true this.1
        omega
      next => omega
    have hc2max : ∀ c', (c' = 2 * start + 1 ∨ c' = 2 * start + 2) → c' < size →
        f (lget l c') ≤ f (lget l c2) := by
      intro c' hc' hc'lt
      rw [hc2def]
      split
      next hcond =>
        have hkey := (Bool.and_eq_true _ _).mp hcond
        have hlt := keyCmp_true f hkey.2
        rcases hc' with h | h <;> subst h
        · exact le_of_lt hlt
        · rw [hplus]
      next hcond =>
        rcases hc' with h | h <;> subst h
        · exact Int.le_refl _
        · by_cases hk : keyCmp f (lget l (2 * start + 1)) (lget l ((2 * start + 1) + 1)) = true
          · have hsz : (2 * start + 1) + 1 < size := by omega
            exact absurd (by simp [hsz, hk]) hcond
          · have hk' : keyCmp f (lget l (2 * start + 1))
                (lget l ((2 * start + 1) + 1)) = false := by
              cases hkc : keyCmp f (lget l (2 * start + 1)) (lget l ((2 * start + 1) + 1)) with
              | true => exact absurd hkc hk
              | false => rfl
            have := keyCmp_false f hk'
            rw [hplus] at this
            exact this
    by_cases hif : keyCmp f (lget l c2) (lget l start) = true
    · rw [if_pos hif]
      have hlt_top := keyCmp_true f hif
      refine ⟨fun i _ => rfl, fun i _ => rfl, List.Perm.refl l, ?_⟩
      intro c hc hdesc hcne
      by_cases hpar : (c - 1) / 2 = start
      · obtain ⟨_, harith, _⟩ := hdesc.parent hcne
        rw [hpar] at harith
        rw [hpar]
        exact le_of_lt (lt_of_le_of_lt (hc2max c harith hc) hlt_top)
      · have hc0 : 0 < c := by
          have := hdesc.ge
          omega
        exact hsub c hc hdesc hcne hpar hc0
    · rw [if_neg hif]
      have hif' : keyCmp f (lget l c2) (lget l start) = false := by
        cases hkc : keyCmp f (lget l c2) (lget l start) with
        | true => exact absurd hkc hif
        | false => rfl
      have htop : f (lget l start) ≤ f (lget l c2) := keyCmp_false f hif'
      obtain ⟨A, A2, P, E, H⟩ := siftLoop_spec f size (lget l start) size l start c2
        hlen (by omega) hc2cases hc2lt (by omega) htop hc2max hsub
      refine ⟨A, A2, ?_, fun c hc hdesc hcne => H c hc hdesc hcne⟩
      exact P.trans (by rw [set_lget_self l start hslen])

theorem makeHeapAux_spec {α : Type} [Inhabited α] [DecidableEq α] (f : α → Int)
    (size : Nat) : ∀ (start : Nat) (l : List α), size ≤ l.length →
    (∀ c, 0 < c → c < size → start < (c - 1) / 2 → PairOK f l c) →
    (makeHeapAux (keyCmp f) size l start).Perm l ∧
    IsKeyHeap f (makeHeapAux (keyCmp f) size l start) size := by
  intro start
  induction start with
  | zero =>
    intro l hlen hpre
    simp only [makeHeapAux]
    obtain ⟨A, A2, P, H⟩ := siftDown_spec f l size 0 hlen
      (fun c hc _ hcne hpar hc0 => hpre c hc0 hc (by omega))
    refine ⟨P, fun c hc0 hc => ?_⟩
    exact H c hc (desc_zero c) (by omega)
  | succ s ih =>
    intro l hlen hpre
    simp only [makeHeapAux]
    obtain ⟨A, A2, P, H⟩ := siftDown_spec f l size (s + 1) hlen
      (fun c hc hdesc hcne hpar hc0 => by
        refine hpre c hc0 hc ?_
        obtain ⟨hdp, _, _⟩ := hdesc.parent hcne
        have := hdp.ge
        omega)
    have hlen' : size ≤ (siftDown (keyCmp f) l size (s + 1)).length := by
      rw [length_siftDown]; exact hlen
    have hpre' : ∀ c, 0 < c → c < size → s < (c - 1) / 2 →
        PairOK f (siftDown (keyCmp f) l size (s + 1)) c := by
      intro c hc0 hc hp
      by_cases hdesc : Desc (s + 1) c
      · have hcne : c ≠ s + 1 := by
          intro he
          subst he
          omega
        exact H c hc hdesc hcne
      · have hpar_ne : ¬ Desc (s + 1) ((c - 1) / 2) := by
          intro hcontra
          have : Desc (s + 1) c := by
            refine hcontra.trans (desc_parent_child ?_)
            omega
          exact hdesc this
        unfold PairOK
        rw [A c hdesc, A _ hpar_ne]
        refine hpre c hc0 hc ?_
        by_cases hps : (c - 1) / 2 = s + 1
        · exact absurd (hps ▸ Desc.refl) hpar_ne
        · omega
    obtain ⟨P', H'⟩ := ih (siftDown (keyCmp f) l size (s + 1)) hlen' hpre'
    exact ⟨P'.trans P, H'⟩

theorem makeHeap_spec {α : Type} [Inhabited α] [DecidableEq α] (f : α → Int)
    (l : List α) :
    (makeHeap (keyCmp f) l).Perm l ∧ IsKeyHeap f (makeHeap (keyCmp f) l) l.length := by
  simp only [makeHeap]
  split
  next hlen =>
    apply makeHeapAux_spec f l.length ((l.length - 2) / 2) l (Nat.le_refl _)
    intro c hc0 hc hp
    omega
  next hlen =>
    refine ⟨List.Perm.refl l, fun c hc0 hc => ?_⟩
    omega

theorem root_max {α : Type} [Inhabited α] (f : α → Int) (l : List α) (size : Nat)
    (h : IsKeyHeap f l size) : ∀ i, i < size → f (lget l i) ≤ f (lget l 0) := by
  intro i
  induction i using Nat.strong_induction_on with
  | _ i ih =>
    intro hi
    match i with
    | 0 => exact Int.le_refl _
    | i + 1 =>
      have h1 := h (i + 1) (by omega) hi
      have h2 := ih ((i + 1 - 1) / 2) (by omega) (by omega)
      exact le_trans h1 h2

theorem popHeap_spec {α : Type} [Inhabited α] [DecidableEq α] (f : α → Int)
    (l : List α) (hne : 0 < l.length) (hh : IsKeyHeap f l l.length) :
    (popHeap (keyCmp f) l).Perm l ∧
    lget (popHeap (keyCmp f) l) (l.length - 1) = lget l 0 ∧
    IsKeyHeap f ((popHeap (keyCmp f) l).dropLast) (l.length - 1) := by
  simp only [popHeap]
  split
  next hlen =>
    have h2 : 2 ≤ l.length := hlen
    set sw := swapEnds l with hswdef
    have hswlen : sw.length = l.length := by
      rw [hswdef, length_swapEnds]
    have hsw_last : lget sw (l.length - 1) = lget l 0 := by
      rw [hswdef]
      unfold swapEnds
      apply lget_set_self
      simp
      omega
    have hsw_at : ∀ i, i ≠ 0 → i ≠ l.length - 1 → lget sw i = lget l i := by
      intro i h0 hl
      rw [hswdef]
      unfold swapEnds
      rw [lget_set_ne _ _ _ _ hl, lget_set_ne _ _ _ _ h0]
    have hsw_perm : sw.Perm l := by
      rw [hswdef]
      unfold swapEnds
      have := perm_shift l 0 (l.length - 1) (lget l 0) (by omega) (by omega) (by omega)
      exact this.trans (by rw [set_lget_self l 0 (by omega)])
    obtain ⟨A, A2, P, H⟩ := siftDown_spec f sw (l.length - 1) 0 (by omega)
      (fun c hc hdesc hcne hpar hc0 => by
        rw [hsw_at c (by omega) (by omega), hsw_at _ (by
            have : (c - 1) / 2 < c := by omega
            omega) (by
            have : (c - 1) / 2 < c := by omega
            omega)]
        exact hh c hc0 (by omega))
    have hreslen : (siftDown (keyCmp f) sw (l.length - 1) 0).length = l.length := by
      rw [length_siftDown, hswlen]
    refine ⟨P.trans hsw_perm, ?_, ?_⟩
    · rw [A2 (l.length - 1) (Nat.le_refl _), hsw_last]
    · intro c hc0 hc
      unfold PairOK
      rw [lget_dropLast _ c (by omega), lget_dropLast _ _ (by
        have : (c - 1) / 2 < c := by omega
        omega)]
      exact H c hc (desc_zero c) (by omega)
  next hlen =>
    have h1 : l.length = 1 := by omega
    refine ⟨List.Perm.refl l, by rw [h1], ?_⟩
    intro c hc0 hc
    omega

theorem popHeap_strict {α : Type} [Inhabited α] [DecidableEq α] (f : α → Int)
    (l : List α) (hne : 0 < l.length) (hh : IsKeyHeap f l l.length)
    (hnd : (l.map f).Nodup) :
    ∀ p ∈ (popHeap (keyCmp f) l).dropLast, f p < f (lget l 0) := by
  obtain ⟨P, hlast, _⟩ := popHeap_spec f l hne hh
  intro p hp
  have hpres : p ∈ popHeap (keyCmp f) l := (List.dropLast_sublist _).subset hp
  have hpl : p ∈ l := P.subset hpres
  have hle : f p ≤ f (lget l 0) := by
    obtain ⟨i, hi, hip⟩ := List.mem_iff_getElem.mp hpl
    have := root_max f l l.length hh i hi
    rw [lget_eq_getElem l i hi, hip] at this
    exact this
  rcases lt_or_eq_of_le hle with h | h
  · exact h
  · exfalso
    have hroot_mem : lget l 0 ∈ l := lget_mem l 0 hne
    have hinj := List.inj_on_of_nodup_map hnd
    have hpe : p = lget l 0 := hinj hpl hroot_mem h
    have hlnd : l.Nodup := List.Nodup.of_map f hnd
    have hcount : l.count p = 1 := List.count_eq_one_of_mem hlnd hpl
    have hres_ne : popHeap (keyCmp f) l ≠ [] := by
      intro he
      have := length_popHeap (keyCmp f) l
      rw [he] at this
      simp at this
      omega
    have hsplit : (popHeap (keyCmp f) l).dropLast ++ [(popHeap (keyCmp f) l).getLast hres_ne] =
        popHeap (keyCmp f) l := List.dropLast_append_getLast hres_ne
    have hlastlen : (popHeap (keyCmp f) l).length - 1 = l.length - 1 := by
      rw [length_popHeap]
    have hgetlast : (popHeap (keyCmp f) l).getLast hres_ne = p := by
      rw [List.getLast_eq_getElem]
      have : lget (popHeap (keyCmp f) l) ((popHeap (keyCmp f) l).length - 1) = p := by
        rw [hlastlen, hlast, ← hpe]
      rw [← this]
      exact (lget_eq_getElem _ _ (by
        have hlp := length_popHeap (keyCmp f) l
        omega)).symm
    have hcount_res : (popHeap (keyCmp f) l).count p = 1 := by
      rw [P.count_eq]
      exact hcount
    rw [← hsplit, hgetlast] at hcount_res
    rw [List.count_append] at hcount_res
    simp [List.count_singleton] at hcount_res
    exact absurd hcount_res (by
      have : (popHeap (keyCmp f) l).dropLast.count p ≥ 1 := List.count_pos_iff.mpr hp
      omega)

theorem bookLoop_spec (fc : Option Cost → Int) (account flag : String) (meta : Metadata) :
    ∀ (fuel : Nat) (ps : List Position) (amount : Amount) (inventory : Inventory)
      (acc bps : List BookedPosting) (inv' : Inventory),
      fuel = ps.length →
      IsKeyHeap (fun p : Position => fc p.cost) ps ps.length →
      (ps.map (fun p : Position => fc p.cost)).Nodup →
      bookLoop (keyCmp (fun p : Position => fc p.cost)) account flag meta fuel ps
        amount inventory acc = .ok (bps, inv') →
      ∃ tail, bps = acc ++ tail ∧
        tail.Pairwise (fun a b => fc b.cost < fc a.cost) ∧
        ∀ b ∈ tail, ∃ p ∈ ps, fc b.cost = fc p.cost := by
  intro fuel
  induction fuel with
  | zero =>
    intro ps amount inventory acc bps inv' hfuel hh hnd h
    simp only [bookLoop] at h
    by_cases hz : (amount.isZero : Bool) = true
    · rw [if_pos hz] at h
      have h' := (Except.ok.injEq _ _).mp h
      refine ⟨[], ?_, List.Pairwise.nil, by simp⟩
      rw [List.append_nil]
      exact (congrArg Prod.fst h').symm
    · rw [if_neg hz] at h
      have hlen0 : ps.length = 0 := by omega
      rw [if_pos hlen0] at h
      exact absurd h (by simp)
  | succ n ih =>
    intro ps amount inventory acc bps inv' hfuel hh hnd h
    simp only [bookLoop] at h
    by_cases hz : (amount.isZero : Bool) = true
    · rw [if_pos hz] at h
      have h' := (Except.ok.injEq _ _).mp h
      refine ⟨[], ?_, List.Pairwise.nil, by simp⟩
      rw [List.append_nil]
      exact (congrArg Prod.fst h').symm
    · rw [if_neg hz] at h
      have hlen_pos : 0 < ps.length := by omega
      have hlen_ne : ¬ ps.length = 0 := by omega
      rw [if_neg hlen_ne] at h
      -- the popped root and the remaining heap
      obtain ⟨P, hlast, Hheap⟩ :=
        popHeap_spec (fun p : Position => fc p.cost) ps hlen_pos hh
      set f := fun p : Position => fc p.cost with hfdef
      set res := popHeap (keyCmp f) ps with hresdef
      have hreslen : res.length = ps.length := by
        rw [hresdef]; exact length_popHeap _ _
      have hroot : lget res (res.length - 1) = lget ps 0 := by
        rw [hreslen]; exact hlast
      have hps2len : res.dropLast.length = ps.length - 1 := by
        rw [List.length_dropLast, hreslen]
      have hfuel2 : n = res.dropLast.length := by omega
      have hh2 : IsKeyHeap f res.dropLast res.dropLast.length := by
        rw [hps2len]; exact Hheap
      have hnd2 : (res.dropLast.map f).Nodup := by
        have hmapnd : (res.map f).Nodup := ((P.map f).nodup_iff).mpr hnd
        exact hmapnd.sublist ((List.dropLast_sublist res).map f)
      have hmem2 : ∀ p ∈ res.dropLast, p ∈ ps :=
        fun p hp => P.subset ((List.dropLast_sublist res).subset hp)
      have hstrict : ∀ p ∈ res.dropLast, f p < f (lget ps 0) :=
        popHeap_strict f ps hlen_pos hh hnd
      have hrootmem : lget ps 0 ∈ ps := lget_mem ps 0 hlen_pos
      by_cases hsign :
          ((lget res (res.length - 1)).amount.isPos == amount.isPos : Bool) = true
      · rw [if_pos hsign] at h
        obtain ⟨tail, htail, hpw, hmem⟩ := ih res.dropLast amount inventory acc bps inv'
          hfuel2 hh2 hnd2 h
        exact ⟨tail, htail, hpw, fun b hb => by
          obtain ⟨p, hp, he⟩ := hmem b hb
          exact ⟨p, hmem2 p hp, he⟩⟩
      · rw [if_neg hsign] at h
        obtain ⟨tail, htail, hpw, hmem⟩ := ih res.dropLast _ _ _ bps inv'
          hfuel2 hh2 hnd2 h
        refine ⟨⟨account, flag,
          (if (lget res (res.length - 1)).amount.abs.lte amount.abs = true
            then (lget res (res.length - 1)).amount.neg else amount),
          (lget res (res.length - 1)).cost, meta⟩ :: tail, ?_, ?_, ?_⟩
        · rw [htail, List.append_assoc]
          rfl
        · refine List.Pairwise.cons ?_ hpw
          intro b hb
          obtain ⟨p, hp, he⟩ := hmem b hb
          have := hstrict p hp
          rw [he]
          show fc p.cost < fc (lget res (res.length - 1)).cost
          rw [hroot]
          exact this
        · intro b hb
          rcases List.mem_cons.mp hb with hb | hb
          · subst hb
            refine ⟨lget ps 0, hrootmem, ?_⟩
            show fc (lget res (res.length - 1)).cost = fc (lget ps 0).cost
            rw [hroot]
          · obtain ⟨p, hp, he⟩ := hmem b hb
            exact ⟨p, hmem2 p hp, he⟩

theorem methodBook_spec (fc : Option Cost → Int) (account flag : String) (meta : Metadata)
    (amount : Amount) (inventory : Inventory) (bps : List BookedPosting) (inv' : Inventory)
    (hnd : (((inventory.getPositionsForCurrency amount.currency).filter
      (fun p => p.cost.isSome)).map (fun p : Position => fc p.cost)).Nodup)
    (h : methodBook (keyCmp (fun p : Position => fc p.cost)) account flag meta amount inventory
      = .ok (bps, inv')) :
    bps.Pairwise (fun a b => fc b.cost < fc a.cost) := by
  simp only [methodBook] at h
  set f := fun p : Position => fc p.cost with hfdef
  set positions := (inventory.getPositionsForCurrency amount.currency).filter
    (fun p => p.cost.isSome) with hposdef
  obtain ⟨PM, HM⟩ := makeHeap_spec f positions
  have hlen : positions.length = (makeHeap (keyCmp f) positions).length :=
    (length_makeHeap _ _).symm
  have hh : IsKeyHeap f (makeHeap (keyCmp f) positions)
      (makeHeap (keyCmp f) positions).length := by
    rw [length_makeHeap]
    exact HM
  have hnd' : ((makeHeap (keyCmp f) positions).map f).Nodup :=
    ((PM.map f).nodup_iff).mpr hnd
  obtain ⟨tail, htail, hpw, _⟩ := bookLoop_spec fc account flag meta positions.length
    (makeHeap (keyCmp f) positions) amount inventory [] bps inv' hlen hh hnd' h
  rw [htail, List.nil_append]
  exact hpw

theorem lifoCmp_eq : lifoCmp = keyCmp (fun p : Position => lotDate p.cost) := by
  funext a b
  rfl

theorem fifoCmp_eq : fifoCmp = keyCmp (fun p : Position => -(lotDate p.cost)) := by
  funext a b
  show decide (posDate b < posDate a) = decide (-(lotDate a.cost) < -(lotDate b.cost))
  rw [decide_eq_decide]
  show posDate b < posDate a ↔ _
  have ha : posDate a = lotDate a.cost := rfl
  have hb : posDate b = lotDate b.cost := rfl
  rw [ha, hb]
  omega

/-- C2: when the candidate lots (held at cost, in the target currency)
have pairwise distinct lot dates, a successful LIFO reduction emits its
postings in strictly descending lot-date order and a successful FIFO
reduction in strictly ascending lot-date order; booking -2.6 USD under
LIFO in scenario S2 emits -1 at the 1.3 lot, -1 at the 1.2 lot and -0.6
at the 1.1 lot, leaving 0.4 USD at the 1.1 lot. -/
theorem booking_method_date_order
    (account flag : String) (meta : Metadata) (amountL amountF : Amount)
    (invL invF : Inventory) (bpsL bpsF : List BookedPosting) (leftL leftF : Inventory)
    (hndL : (((invL.getPositionsForCurrency amountL.currency).filter
        (fun p => p.cost.isSome)).map posDate).Nodup)
    (hndF : (((invF.getPositionsForCurrency amountF.currency).filter
        (fun p => p.cost.isSome)).map posDate).Nodup)
    (hL : lifoBook account flag meta amountL invL = .ok (bpsL, leftL))
    (hF : fifoBook account flag meta amountF invF = .ok (bpsF, leftF)) :
    bpsL.Pairwise (fun a b => lotDate b.cost < lotDate a.cost) ∧
    bpsF.Pairwise (fun a b => lotDate a.cost < lotDate b.cost) ∧
    lifoBook "Assets:Broker" "*" [] ⟨⟨-13, 5⟩, "USD"⟩ s2Inv =
      .ok (s2LifoPostings, s2LifoLeft) := by
  have hposDate : posDate = fun p : Position => lotDate p.cost := rfl
  refine ⟨?_, ?_, by decide⟩
  · have hL' : methodBook (keyCmp (fun p : Position => lotDate p.cost)) account flag meta
        amountL invL = .ok (bpsL, leftL) := by
      rw [← lifoCmp_eq]
      exact hL
    refine methodBook_spec lotDate account flag meta amountL invL bpsL leftL ?_ hL'
    rw [← hposDate]
    exact hndL
  · have hF' : methodBook (keyCmp (fun p : Position => -(lotDate p.cost))) account flag meta
        amountF invF = .ok (bpsF, leftF) := by
      rw [← fifoCmp_eq]
      exact hF
    have hndF' : (((invF.getPositionsForCurrency amountF.currency).filter
        (fun p => p.cost.isSome)).map (fun p : Position => -(lotDate p.cost))).Nodup := by
      have : ((invF.getPositionsForCurrency amountF.currency).filter
          (fun p => p.cost.isSome)).map (fun p : Position => -(lotDate p.cost)) =
          (((invF.getPositionsForCurrency amountF.currency).filter
            (fun p => p.cost.isSome)).map posDate).map (fun d => -d) := by
        rw [List.map_map]
        rfl
      rw [this]
      exact hndF.map (fun a b h => by omega)
    have hpwF := methodBook_spec (fun oc => -(lotDate oc)) account flag meta amountF invF
      bpsF leftF hndF' hF'
    exact hpwF.imp (fun h => by simp only at h; omega)
/-- C2 witness: both methods applied at scenario S2. -/
theorem booking_method_date_order_witness :
    ((((s2Inv.getPositionsForCurrency "USD").filter
        (fun p => p.cost.isSome)).map posDate).Nodup ∧
     lifoBook "A" "*" [] ⟨⟨-13, 5⟩, "USD"⟩ s2Inv =
       .ok ([⟨"A", "*", ⟨⟨-1, 1⟩, "USD"⟩, some s2Cost3, []⟩,
             ⟨"A", "*", ⟨⟨-1, 1⟩, "USD"⟩, some s2Cost2, []⟩,
             ⟨"A", "*", ⟨⟨-3, 5⟩, "USD"⟩, some s2Cost1, []⟩], s2LifoLeft) ∧
     fifoBook "A" "*" [] ⟨⟨-13, 5⟩, "USD"⟩ s2Inv =
       .ok ([⟨"A", "*", ⟨⟨-1, 1⟩, "USD"⟩, some s2Cost1, []⟩,
             ⟨"A", "*", ⟨⟨-1, 1⟩, "USD"⟩, some s2Cost2, []⟩,
             ⟨"A", "*", ⟨⟨-3, 5⟩, "USD"⟩, some s2Cost3, []⟩],
         ⟨[("USD", [⟨⟨⟨2, 5⟩, "USD"⟩, some s2Cost3⟩])]⟩)) ∧
    ([⟨"A", "*", ⟨⟨-1, 1⟩, "USD"⟩, some s2Cost3, []⟩,
      ⟨"A", "*", ⟨⟨-1, 1⟩, "USD"⟩, some s2Cost2, []⟩,
      ⟨"A", "*", ⟨⟨-3, 5⟩, "USD"⟩, some s2Cost1, []⟩] : List BookedPosting).Pairwise
        (fun a b => lotDate b.cost < lotDate a.cost) ∧
    ([⟨"A", "*", ⟨⟨-1, 1⟩, "USD"⟩, some s2Cost1, []⟩,
      ⟨"A", "*", ⟨⟨-1, 1⟩, "USD"⟩, some s2Cost2, []⟩,
      ⟨"A", "*", ⟨⟨-3, 5⟩, "USD"⟩, some s2Cost3, []⟩] : List BookedPosting).Pairwise
        (fun a b => lotDate a.cost < lotDate b.cost) ∧
    lifoBook "Assets:Broker" "*" [] ⟨⟨-13, 5⟩, "USD"⟩ s2Inv =
      .ok (s2LifoPostings, s2LifoLeft) :=
  ⟨⟨by decide, by decide, by decide⟩,
   booking_method_date_order "A" "*" [] ⟨⟨-13, 5⟩, "USD"⟩ ⟨⟨-13, 5⟩, "USD"⟩ s2Inv s2Inv
     [⟨"A", "*", ⟨⟨-1, 1⟩, "USD"⟩, some s2Cost3, []⟩,
      ⟨"A", "*", ⟨⟨-1, 1⟩, "USD"⟩, some s2Cost2, []⟩,
      ⟨"A", "*", ⟨⟨-3, 5⟩, "USD"⟩, some s2Cost1, []⟩]
     [⟨"A", "*", ⟨⟨-1, 1⟩, "USD"⟩, some s2Cost1, []⟩,
      ⟨"A", "*", ⟨⟨-1, 1⟩, "USD"⟩, some s2Cost2, []⟩,
      ⟨"A", "*", ⟨⟨-3, 5⟩, "USD"⟩, some s2Cost3, []⟩]
     s2LifoLeft ⟨[("USD", [⟨⟨⟨2, 5⟩, "USD"⟩, some s2Cost3⟩])]⟩
     (by decide) (by decide) (by decide) (by decide)⟩
